import Mathlib

/-!
Verification of the core of the Verible tabular code-alignment engine
(`common/formatting/align.cc`) and of the canonical interval set
(`common/util/interval_set.h`), via a shallow embedding into Lean.

The `std::map<T, T>` underlying `verible::IntervalSet` is embedded as a
list of `(min, max)` pairs sorted by key; map iterators become indices
into that list.  Byte offsets and the scalar domain are modelled by
`Nat`.
-/

namespace Verible

namespace IntervalSetM

/-- An interval-set entry: a half-open interval `[min, max)`, the
`value_type` of the map (`.1` is the key `min`, `.2` is the value
`max`). -/
abbrev Entry := Nat × Nat

/-- The internal `std::map<T, T> intervals_` of `IntervalSet`, embedded
as a key-sorted association list. -/
abbrev ISet := List Entry

/-- Modelled from the spec: `Interval::contains(value)` from
`common/util/interval.h` (that header is not under src/): membership in
the half-open interval `[min, max)`. -/
def icontains (p : Entry) (v : Nat) : Bool :=
  decide (p.1 ≤ v) && decide (v < p.2)

/-- Index of the first entry whose key is not less than `v`
(`std::map::lower_bound`). -/
def lowerBoundIdx : ISet → Nat → Nat
  | [], _ => 0
  | p :: t, v => if v ≤ p.1 then 0 else lowerBoundIdx t v + 1

/-- Index of the first entry whose key is greater than `v`
(`std::map::upper_bound`). -/
def upperBoundIdx : ISet → Nat → Nat
  | [], _ => 0
  | p :: t, v => if v < p.1 then 0 else upperBoundIdx t v + 1

/-- `_IntervalSetImpl::FindLowerBound`: the first interval that spans or
follows `value`; looks one entry back from `lower_bound` and returns it
when it contains `value`.  (When the index is in range, `List.getD`
reads the pointed-to entry; out-of-range reads never happen on the
guarded paths.) -/
def findLowerBoundIdx (l : ISet) (v : Nat) : Nat :=
  if lowerBoundIdx l v = 0 then lowerBoundIdx l v
  else if icontains (l.getD (lowerBoundIdx l v - 1) (0, 0)) v then
    lowerBoundIdx l v - 1
  else lowerBoundIdx l v

/-- `_IntervalSetImpl::FindSpanningInterval` (single-value variant):
the index of the interval that contains `value`, or `none` (the end
iterator). -/
def findIdx (l : ISet) (v : Nat) : Option Nat :=
  if upperBoundIdx l v = 0 then none
  else if icontains (l.getD (upperBoundIdx l v - 1) (0, 0)) v then
    some (upperBoundIdx l v - 1)
  else none

/-- `IntervalSet::Contains(value)`: `Find(value) != intervals_.end()`. -/
def Contains (l : ISet) (v : Nat) : Bool := (findIdx l v).isSome

/-- Step 1 of `IntervalSet::Add` (interval_set.h lines 214-227):
whether `max_lb = LowerBound(max)` is a real interval that contains
`max` (the "erase this interval, but use its max" branch). -/
def addHit (l : ISet) (hi : Nat) : Bool :=
  decide (findLowerBoundIdx l hi < l.length) &&
    icontains (l.getD (findLowerBoundIdx l hi) (0, 0)) hi

/-- Step 1 of `IntervalSet::Add`: the fused upper bound `new_max`. -/
def addNewMax (l : ISet) (hi : Nat) : Nat :=
  if addHit l hi then (l.getD (findLowerBoundIdx l hi) (0, 0)).2 else hi

/-- Step 1 of `IntervalSet::Add`: the index of the `erase_end`
iterator.  When `max_lb` contains `max` it is `std::next(max_lb)`,
otherwise `max_lb` itself (which is also `end()` when `max_lb` is
`end()`). -/
def addEraseEnd (l : ISet) (hi : Nat) : Nat :=
  if addHit l hi then findLowerBoundIdx l hi + 1 else findLowerBoundIdx l hi

/-- `IntervalSet::Add(interval)`, translated from
`common/util/interval_set.h` lines 208-258.  Map iterators are modelled
as indices into the sorted list; `insert`, the in-place `->second`
updates, and the final `erase(erase_begin, erase_end)` are realized as
`take`/`drop` splicing.  The four branches are, in order: the entry
keyed `min` already exists (insert fails, reuse the entry, erase from
its successor); the fresh entry landed at `begin()` (erase from its
successor); the predecessor abuts or overlaps (`prev->second >= min`:
extend the predecessor, discard the fresh entry); otherwise keep the
fresh entry.  The iterator saved as `erase_end` is stable across the
insertion, so the erased entries are exactly the original entries in
`[insert position, addEraseEnd)`, which the splices realize.  The
`CHECK(interval.valid())` precondition (an abort in the source) and the
`interval.empty()` early return are both represented by returning the
set unchanged when `hi ≤ lo`. -/
def Add (l : ISet) (lo hi : Nat) : ISet :=
  if hi ≤ lo then l
  else if lowerBoundIdx l lo < l.length ∧
      (l.getD (lowerBoundIdx l lo) (0, 0)).1 = lo then
    l.take (lowerBoundIdx l lo) ++ (lo, addNewMax l hi) ::
      l.drop (addEraseEnd l hi)
  else if lowerBoundIdx l lo = 0 then
    (lo, addNewMax l hi) :: l.drop (addEraseEnd l hi)
  else if lo ≤ (l.getD (lowerBoundIdx l lo - 1) (0, 0)).2 then
    l.take (lowerBoundIdx l lo - 1) ++
      ((l.getD (lowerBoundIdx l lo - 1) (0, 0)).1, addNewMax l hi) ::
      l.drop (addEraseEnd l hi)
  else
    l.take (lowerBoundIdx l lo) ++ (lo, addNewMax l hi) ::
      l.drop (addEraseEnd l hi)

/-- `IntervalSet::Add(value)`: add the singleton `[value, value+1)`. -/
def AddValue (l : ISet) (v : Nat) : ISet := Add l v (v + 1)

/-- `IntervalSet::CheckIntegrity` as an executable check: every entry
is valid and non-empty (`min < max`) and consecutive entries satisfy
`prev.max < next.min` (strictly non-overlapping and non-abutting, hence
also sorted). -/
def canonicalB : ISet → Bool
  | [] => true
  | [p] => decide (p.1 < p.2)
  | p :: q :: t => decide (p.1 < p.2) && decide (p.2 < q.1) && canonicalB (q :: t)

/-- Canonical form, the invariant checked by
`IntervalSet::CheckIntegrity`. -/
def Canonical (l : ISet) : Prop := canonicalB l = true

instance : DecidablePred Canonical := fun l =>
  inferInstanceAs (Decidable (canonicalB l = true))

/-- Semantic membership used to state properties: `v` lies in some
stored interval. -/
def memB (l : ISet) (v : Nat) : Bool := l.any (fun p => icontains p v)

/-- Modelled from the spec: the body of `IntervalSet::Complement` is
not under src/ (interval_set.h only declares the other operations; the
spec describes Complement in section 4.1): given a bounding interval
`[lo, hi)`, replace the set with `[lo, hi) \ set`, still in canonical
form; an empty bound yields the empty set.  Implemented as a sweep that
emits the gaps between the stored intervals, clipped to the bound. -/
def complementGo (lo hi : Nat) : ISet → ISet
  | [] => if lo < hi then [(lo, hi)] else []
  | p :: t =>
    (if lo < min p.1 hi then [(lo, min p.1 hi)] else []) ++
      complementGo (max lo p.2) hi t

/-- Modelled from the spec: `IntervalSet::Complement(bound)`. -/
def Complement (bound : Entry) (l : ISet) : ISet :=
  complementGo bound.1 bound.2 l

/-- `AnyPartitionSubRangeIsDisabled` (align.cc lines 608-618): decides
whether any byte of the group's span `[lo, hi)` (the byte-offset pair
`SubstringOffsets(span, full_text)`) is format-disabled: copy the
disabled set, complement it against the span offsets, and compare the
result with the span itself as a set. -/
def AnyPartitionSubRangeIsDisabled (lo hi : Nat) (disabled : ISet) : Bool :=
  decide (Complement (lo, hi) disabled ≠ Add [] lo hi)

end IntervalSetM

namespace AlignM

/-- Modelled from the spec: `PreFormatToken` from
common/formatting/format_token.h (not under src/).  Only the fields the
alignment core reads are modelled: the token text length and the
pre-spacing request `before.spaces_required`.  Distinct tokens of the
buffer are distinct slices of the source text, so `BoundsEqual` on
token texts is modelled as equality of buffer indices. -/
structure PreFormatToken where
  len : Nat
  sp : Int
deriving DecidableEq

/-- The global mutable token buffer that `ftoken_base` points into;
token ranges are index pairs into it. -/
abbrev TokBuf := List PreFormatToken

/-- Read the token at index `i` (out-of-range reads never happen on the
paths the theorems traverse; a zero token is the default). -/
def tokAt (buf : TokBuf) (i : Nat) : PreFormatToken := buf.getD i ⟨0, 0⟩

/-- Modelled from the spec: `PreFormatToken::LeadingSpacesLength()`
(format_token.h is not under src/): the spacing in front of a token.
Modelled as `spaces_required`; the preserve-original-spacing policy the
spec mentions ("may honor original spacing when preservation is
requested") is not modelled. -/
def LeadingSpacesLength (t : PreFormatToken) : Int := t.sp

/-- Write `spaces_required` of the token at index `i` (the single
mutation `AlignRowSpacings` performs). -/
def setSp : TokBuf → Nat → Int → TokBuf
  | [], _, _ => []
  | t :: ts, 0, v => ⟨t.len, v⟩ :: ts
  | t :: ts, n + 1, v => t :: setSp ts n v

/-- Width of the token range starting at `b` spanning `d` tokens:
leading spaces plus text length of every token (structural recursion on
the token count). -/
def tokSumFuel (buf : TokBuf) : Nat → Nat → Int
  | 0, _ => 0
  | d + 1, b =>
    LeadingSpacesLength (tokAt buf b) + (tokAt buf b).len +
      tokSumFuel buf d (b + 1)

/-- Width of the token range `[b, e)`: leading spaces plus text length
of every token. -/
def tokSum (buf : TokBuf) (b e : Nat) : Int := tokSumFuel buf (e - b) b

/-- `EffectiveCellWidth` (align.cc lines 106-121): the accumulate over
the range starting from `-front.LeadingSpacesLength()`, i.e. the full
width less the first token's leading spaces; 0 for an empty range. -/
def EffectiveCellWidth (buf : TokBuf) (b e : Nat) : Int :=
  if e ≤ b then 0 else tokSum buf b e - LeadingSpacesLength (tokAt buf b)

/-- `EffectiveLeftBorderWidth` (lines 123-126): `spaces_required` of
the first token, 0 for an empty range. -/
def EffectiveLeftBorderWidth (buf : TokBuf) (b e : Nat) : Int :=
  if e ≤ b then 0 else (tokAt buf b).sp

/-- `AlignmentCell`: a token sub-range `[b, e)` of the row plus the
widths computed by `UpdateWidths`. -/
structure AlignmentCell where
  b : Nat
  e : Nat
  compact_width : Int
  left_border_width : Int
deriving DecidableEq

/-- `AlignmentCell::UpdateWidths`. -/
def UpdateWidths (buf : TokBuf) (c : AlignmentCell) : AlignmentCell :=
  ⟨c.b, c.e, EffectiveCellWidth buf c.b c.e,
    EffectiveLeftBorderWidth buf c.b c.e⟩

/-- `ComputeCellWidths` (lines 348-357). -/
def ComputeCellWidths (buf : TokBuf)
    (matrix : List (List AlignmentCell)) : List (List AlignmentCell) :=
  matrix.map (fun row => row.map (UpdateWidths buf))

/-- `AlignedColumnConfiguration`: per-column aggregated widths. -/
structure AlignedColumnConfiguration where
  width : Int
  left_border : Int
deriving DecidableEq

/-- `AlignedColumnConfiguration::TotalWidth`. -/
def TotalWidth (c : AlignedColumnConfiguration) : Int :=
  c.left_border + c.width

/-- `AlignedColumnConfiguration::UpdateFromCell`. -/
def UpdateFromCell (cfg : AlignedColumnConfiguration)
    (cell : AlignmentCell) : AlignedColumnConfiguration :=
  ⟨max cfg.width cell.compact_width,
    max cfg.left_border cell.left_border_width⟩

/-- `ComputeColumnWidths` (lines 361-374): fold every row into a
config vector sized from the first row (the matrix is rectangular and
non-empty whenever this is reached). -/
def ComputeColumnWidths (matrix : List (List AlignmentCell)) :
    List AlignedColumnConfiguration :=
  match matrix with
  | [] => []
  | r0 :: _ =>
    matrix.foldl (fun cfgs row => List.zipWith UpdateFromCell cfgs row)
      (List.replicate r0.length ⟨0, 0⟩)

/-- `AlignmentColumnProperties` (from align.h): only `flush_left`
affects the core. -/
structure AlignmentColumnProperties where
  flush_left : Bool
deriving DecidableEq

/-- `AlignRowSpacings` (align.cc lines 377-410): walk the row's cells
with the column configs and properties in lockstep, maintaining
`accrued_spaces`; the only mutation is `spaces_required` of the first
token of each non-empty cell. -/
def AlignRowSpacings : List AlignedColumnConfiguration →
    List AlignmentColumnProperties → List AlignmentCell → Int → TokBuf →
    TokBuf
  | cfg :: cfgs, pr :: prs, cell :: cells, accrued, buf =>
    if cell.e ≤ cell.b then
      AlignRowSpacings cfgs prs cells (accrued + cfg.left_border + cfg.width)
        buf
    else if pr.flush_left then
      AlignRowSpacings cfgs prs cells (cfg.width - cell.compact_width)
        (setSp buf cell.b (accrued + cfg.left_border))
    else
      AlignRowSpacings cfgs prs cells 0
        (setSp buf cell.b
          (accrued + cfg.left_border + (cfg.width - cell.compact_width)))
  | _, _, _, _, buf => buf

/-- `SyntaxTreePath`: sequence of child indices, ordered
lexicographically (the `std::map` comparator). -/
abbrev SyntaxTreePath := List Nat

/-- Lexicographic strict order on syntax tree paths. -/
def pathLt : SyntaxTreePath → SyntaxTreePath → Bool
  | [], [] => false
  | [], _ :: _ => true
  | _ :: _, [] => false
  | a :: as, b :: bs =>
    if a < b then true else if b < a then false else pathLt as bs

/-- `ColumnPositionEntry`: `{path, starting_token, properties}`.  The
starting token is identified by its index into the global token buffer
(buffer-slice identity). -/
structure ColumnPositionEntry where
  path : SyntaxTreePath
  starting_token : Nat
  properties : AlignmentColumnProperties
deriving DecidableEq

/-- One insertion into the path-keyed ordered map `cell_map_`
(`ColumnSchemaAggregator::Collect` + `AggregateColumnData::Import`):
properties are taken from the first occurrence of a path. -/
def insertColumn (m : List (SyntaxTreePath × AlignmentColumnProperties))
    (c : ColumnPositionEntry) :
    List (SyntaxTreePath × AlignmentColumnProperties) :=
  match m with
  | [] => [(c.path, c.properties)]
  | (p, f) :: rest =>
    if pathLt c.path p then (c.path, c.properties) :: (p, f) :: rest
    else if c.path = p then (p, f) :: rest
    else (p, f) :: insertColumn rest c

/-- Collect all rows' sparse columns into the ordered schema
(`Collect` over each row, then `FinalizeColumnIndices` /
`ColumnProperties` read the map in key order). -/
def CollectSchema (rows : List (List ColumnPositionEntry)) :
    List (SyntaxTreePath × AlignmentColumnProperties) :=
  rows.foldl (fun m row => row.foldl insertColumn m) []

/-- `std::find` over `column_positions` from index `p`, with the
remaining distance to the end as structural fuel. -/
def findPathFromFuel (positions : List SyntaxTreePath)
    (target : SyntaxTreePath) : Nat → Nat → Option Nat
  | 0, _ => none
  | d + 1, p =>
    if positions.getD p [] = target then some p
    else findPathFromFuel positions target d (p + 1)

/-- `std::find` over `column_positions` starting at the saved
`pos_iter` index `p`. -/
def findPathFrom (positions : List SyntaxTreePath) (p : Nat)
    (target : SyntaxTreePath) : Option Nat :=
  findPathFromFuel positions target (positions.length - p) p

/-- `std::find_if` over a token range from `t`, with the remaining
range length as structural fuel. -/
def findTokFromFuel (target : Nat) : Nat → Nat → Option Nat
  | 0, _ => none
  | d + 1, t =>
    if t = target then some t else findTokFromFuel target d (t + 1)

/-- `std::find_if` over the token range `[t, te)` looking for the
token whose text is the anchor's starting token (buffer-slice
identity, i.e. index equality). -/
def findTokFrom (t te target : Nat) : Option Nat :=
  findTokFromFuel target (te - t) t

/-- `AlignmentRowData`: the row's mutable token range `[b, e)` plus the
scanner's sparse columns. -/
structure AlignmentRowData where
  b : Nat
  e : Nat
  sparse_columns : List ColumnPositionEntry
deriving DecidableEq

/-- First pass of `FillAlignmentRow` (align.cc lines 286-318): for each
sparse anchor, advance `pos_iter` to the anchor's column and
`token_iter` to the anchor's starting token, and fill the begins of the
columns from `last_column_index` through that column with the found
token position; after the loop, fill the remaining columns with the
token-range end.  `none` models the `CHECK` failures. -/
def fillBegins (positions : List SyntaxTreePath) (te : Nat) :
    List ColumnPositionEntry → Nat → Nat → Nat → Option (List Nat)
  | [], _, _, lastCol => some (List.replicate (positions.length - lastCol) te)
  | a :: rest, p, t, lastCol => do
    let ci ← findPathFrom positions p a.path
    let ti ← findTokFrom t te a.starting_token
    let tail ← fillBegins positions te rest ci ti (ci + 1)
    some (List.replicate (ci + 1 - lastCol) ti ++ tail)

/-- Second pass of `FillAlignmentRow` (lines 320-325): reversed walk
setting each cell's upper bound to the next cell's begin, seeded with
the token-range end. -/
def setEndsRev : List Nat → Nat → List AlignmentCell
  | [], _ => []
  | b :: rest, ub => ⟨b, ub, 0, 0⟩ :: setEndsRev rest b

/-- `FillAlignmentRow` (lines 271-327). -/
def FillAlignmentRow (positions : List SyntaxTreePath)
    (rd : AlignmentRowData) : Option (List AlignmentCell) :=
  (fillBegins positions rd.e rd.sparse_columns 0 rd.b 0).map
    (fun begins => (setEndsRev begins.reverse rd.e).reverse)

/-- A row partition (`TokenPartitionTree` node the engine reads): its
token range `[b, e)` into the buffer, `IndentationSpaces()`, the syntax
node tag of its `Origin()` (`GetPartitionNodeEnum`), and the buffer
index of the rightmost leaf token of the origin subtree
(`GetRightmostLeaf`). -/
structure RowPartition where
  b : Nat
  e : Nat
  indent : Int
  kind : Int
  lastLeaf : Nat
deriving DecidableEq

/-- Backward scan of `GetMutableFormatTokenRange` (align.cc lines
433-455): starting from the row's token-range end, step back while the
token before the end is not the rightmost leaf of the row's origin
subtree; `none` models running past the row's begin (the `CHECK`
assertion / out-of-range read). -/
def trimTokenRangeEnd (lastLeaf b : Nat) : Nat → Option Nat
  | 0 => none
  | e + 1 =>
    if e + 1 ≤ b then none
    else if e = lastLeaf then some (e + 1)
    else trimTokenRangeEnd lastLeaf b e

/-- `GetMutableFormatTokenRange`: the row's token range with trailing
out-of-subtree tokens trimmed. -/
def GetMutableFormatTokenRange (r : RowPartition) : Option (Nat × Nat) :=
  (trimTokenRangeEnd r.lastLeaf r.b r.e).map (fun e2 => (r.b, e2))

/-- `VerifyRowsOriginalNodeTypes` (align.cc lines 91-104): all rows
share the first row's syntax-node kind. -/
def VerifyRowsOriginalNodeTypes (rows : List RowPartition) : Bool :=
  match rows with
  | [] => true
  | r0 :: _ => rows.all (fun r => decide (r.kind = r0.kind))

/-- The per-row loop of `AlignFilteredRows` (lines 474-488): extract
each row's mutable token range and run the cell scanner. -/
def collectRowData (scanner : RowPartition → List ColumnPositionEntry) :
    List RowPartition → Option (List AlignmentRowData)
  | [] => some []
  | r :: rest => do
    let be ← GetMutableFormatTokenRange r
    let tail ← collectRowData scanner rest
    some (⟨be.1, be.2, scanner r⟩ :: tail)

/-- Fill every matrix row (lines 501-509). -/
def fillAll (positions : List SyntaxTreePath) :
    List AlignmentRowData → Option (List (List AlignmentCell))
  | [] => some []
  | rd :: rest => do
    let row ← FillAlignmentRow positions rd
    let tail ← fillAll positions rest
    some (row :: tail)

/-- The column positions of the aggregated schema. -/
def afrPositions (rowData : List AlignmentRowData) : List SyntaxTreePath :=
  (CollectSchema (rowData.map (fun rd => rd.sparse_columns))).map Prod.fst

/-- The column properties of the aggregated schema. -/
def afrProps (rowData : List AlignmentRowData) :
    List AlignmentColumnProperties :=
  (CollectSchema (rowData.map (fun rd => rd.sparse_columns))).map Prod.snd

/-- The dense matrix with computed cell widths (lines 497-512). -/
def afrMatrix (buf : TokBuf) (rowData : List AlignmentRowData) :
    Option (List (List AlignmentCell)) :=
  (fillAll (afrPositions rowData) rowData).map (ComputeCellWidths buf)

/-- `std::accumulate` computing `total_column_width` (lines 522-527),
seeded with the first row's indentation. -/
def totalColumnWidth (indent : Int)
    (configs : List AlignedColumnConfiguration) : Int :=
  configs.foldl (fun acc c => acc + TotalWidth c) indent

/-- Indentation of the first row
(`rows.front().base()->Value().IndentationSpaces()`). -/
def rowsIndent : List RowPartition → Int
  | [] => 0
  | r0 :: _ => r0.indent

/-- `total_column_width` of the group. -/
def afrTotal (rows : List RowPartition)
    (matrix : List (List AlignmentCell)) : Int :=
  totalColumnWidth (rowsIndent rows) (ComputeColumnWidths matrix)

/-- The per-row epilog overflow check (align.cc lines 538-558): for
each row whose cell list is non-empty, the epilog is the token range
from the last cell's end to the partition's token-range end; the group
is abandoned when `total + EffectiveCellWidth(epilog)` exceeds the
limit for any row. -/
def epilogOverflow (buf : TokBuf) (rows : List RowPartition)
    (matrix : List (List AlignmentCell)) (total limit : Int) : Bool :=
  (List.zip rows matrix).any (fun rm =>
    match rm.2.getLast? with
    | none => false
    | some c => decide (limit < total + EffectiveCellWidth buf c.e rm.1.e))

/-- The final respacing loop (lines 565-567). -/
def respaceAll (configs : List AlignedColumnConfiguration)
    (props : List AlignmentColumnProperties)
    (matrix : List (List AlignmentCell)) (buf : TokBuf) : TokBuf :=
  matrix.foldl (fun b row => AlignRowSpacings configs props row 0 b) buf

/-- `AlignFilteredRows` (align.cc lines 457-569).  The result is the
token buffer after the call (`some`), or `none` when a `CHECK` in a
helper fires.  All phases before the final respacing loop only read
the buffer, mirroring the source, where the only writes are the
`spaces_required` stores of `AlignRowSpacings`. -/
def AlignFilteredRows (buf : TokBuf) (rows : List RowPartition)
    (scanner : RowPartition → List ColumnPositionEntry) (limit : Int) :
    Option TokBuf :=
  if rows.length ≤ 1 then some buf
  else if !VerifyRowsOriginalNodeTypes rows then some buf
  else
    match collectRowData scanner rows with
    | none => none
    | some rowData =>
      match afrMatrix buf rowData with
      | none => none
      | some matrix =>
        if limit < afrTotal rows matrix then some buf
        else if epilogOverflow buf rows matrix (afrTotal rows matrix) limit
          then some buf
        else some (respaceAll (ComputeColumnWidths matrix)
          (afrProps rowData) matrix buf)

/-- `AlignPartitionGroup` (align.cc lines 571-595): filter out the
partitions matched by `ignore_pred`, then align the qualified rows. -/
def AlignPartitionGroup (buf : TokBuf) (group : List RowPartition)
    (scanner : RowPartition → List ColumnPositionEntry)
    (ignore_pred : RowPartition → Bool) (limit : Int) : Option TokBuf :=
  AlignFilteredRows buf (group.filter (fun r => !ignore_pred r)) scanner
    limit

/-- One iteration of the group loop of `TabularAlignTokens` (align.cc
lines 646-657).  `span` is the byte-offset pair
`SubstringOffsets(StringSpanOfPartitionRange(group), full_text)`; the
mapping from tokens to byte offsets lives outside the embedded core, so
the span is a parameter.  An empty group, or a group whose span
overlaps the disabled byte set, is skipped. -/
def TabularAlignGroupStep (buf : TokBuf) (group : List RowPartition)
    (scanner : RowPartition → List ColumnPositionEntry)
    (ignore_pred : RowPartition → Bool) (limit : Int) (span : Nat × Nat)
    (disabled : IntervalSetM.ISet) : Option TokBuf :=
  if group.isEmpty ||
      IntervalSetM.AnyPartitionSubRangeIsDisabled span.1 span.2 disabled
    then some buf
  else AlignPartitionGroup buf group scanner ignore_pred limit

/-- The rendered width of a row per the spec: its indentation plus the
sum, over the row partition's whole token range, of each token's
leading spaces and text length. -/
def renderedWidth (buf : TokBuf) (r : RowPartition) : Int :=
  r.indent + tokSum buf r.b r.e

/-- The list of `(token index, spaces)` writes the spacing walk
performs, following the claim gloss of align.cc lines 377-410: columns
are walked left to right with `accrued_spaces` starting at 0, each
column first adds its `left_border`; an empty cell forwards the
column's width into `accrued_spaces`; a non-empty cell with
`padding = width - compact_width` receives `accrued_spaces` on its
first token and resets the counter to `padding` when flush-left, or
receives `accrued_spaces + padding` and resets to 0 when flush-right. -/
def alignWrites : List AlignedColumnConfiguration →
    List AlignmentColumnProperties → List AlignmentCell → Int →
    List (Nat × Int)
  | cfg :: cfgs, pr :: prs, cell :: cells, accrued =>
    if cell.e ≤ cell.b then
      alignWrites cfgs prs cells (accrued + cfg.left_border + cfg.width)
    else if pr.flush_left then
      (cell.b, accrued + cfg.left_border) ::
        alignWrites cfgs prs cells (cfg.width - cell.compact_width)
    else
      (cell.b, accrued + cfg.left_border +
        (cfg.width - cell.compact_width)) :: alignWrites cfgs prs cells 0
  | _, _, _, _ => []

/-- The cell list tiles the token range `[cb, te)`: the first cell
begins at `cb`, each cell is a forward range, consecutive cells abut,
and the last cell ends at `te` (the matrix-fill invariant). -/
def cellsTile : Nat → Nat → List AlignmentCell → Prop
  | cb, te, [] => cb = te
  | cb, te, c :: cs => c.b = cb ∧ cb ≤ c.e ∧ cellsTile c.e te cs

/-- Leading spaces of the first epilog token of a row (0 when the
epilog is empty): the slack the budget check never counts. -/
def epilogLead (buf : TokBuf) (rd : AlignmentRowData)
    (r : RowPartition) : Int :=
  if rd.e < r.e then (tokAt buf rd.e).sp else 0

/-- Example buffer for witnesses: two assignment-like rows
`a = 1 ;` and `bb = 22 ;`. -/
def exBuf : TokBuf :=
  [⟨1, 0⟩, ⟨1, 1⟩, ⟨1, 1⟩, ⟨1, 0⟩, ⟨2, 0⟩, ⟨1, 1⟩, ⟨2, 1⟩, ⟨1, 0⟩]

/-- Example row partitions for witnesses. -/
def exR0 : RowPartition := ⟨0, 4, 0, 5, 3⟩

/-- Second example row partition. -/
def exR1 : RowPartition := ⟨4, 8, 0, 5, 7⟩

/-- Example cell scanner for witnesses: four one-token cells. -/
def exScan (r : RowPartition) : List ColumnPositionEntry :=
  [⟨[0], r.b, ⟨true⟩⟩, ⟨[1], r.b + 1, ⟨true⟩⟩, ⟨[2], r.b + 2, ⟨true⟩⟩,
    ⟨[3], r.b + 3, ⟨true⟩⟩]

/-- The row data `collectRowData` produces on the example rows. -/
def exRowData : List AlignmentRowData :=
  [⟨0, 4, exScan exR0⟩, ⟨4, 8, exScan exR1⟩]

/-- The matrix `afrMatrix` produces on the example rows. -/
def exMatrix : List (List AlignmentCell) :=
  [[⟨0, 1, 1, 0⟩, ⟨1, 2, 1, 1⟩, ⟨2, 3, 1, 1⟩, ⟨3, 4, 1, 0⟩],
   [⟨4, 5, 2, 0⟩, ⟨5, 6, 1, 1⟩, ⟨6, 7, 2, 1⟩, ⟨7, 8, 1, 0⟩]]

/-- Counterexample buffer: rows `ab ,` and `cd ,` where the trailing
comma (one leading space) is epilog. -/
def cexBuf : TokBuf := [⟨2, 0⟩, ⟨1, 1⟩, ⟨2, 0⟩, ⟨1, 1⟩]

/-- Counterexample first row: tokens `[0, 2)`, rightmost origin leaf at
index 0, so the comma at index 1 is trimmed into the epilog. -/
def cexR0 : RowPartition := ⟨0, 2, 0, 5, 0⟩

/-- Counterexample second row. -/
def cexR1 : RowPartition := ⟨2, 4, 0, 5, 2⟩

/-- Counterexample scanner: one single-token cell per row. -/
def cexScan (r : RowPartition) : List ColumnPositionEntry :=
  [⟨[0], r.b, ⟨true⟩⟩]


/-- The row data `collectRowData` produces on the counterexample rows:
each row's range is trimmed to drop the epilog comma. -/
def cexRowData : List AlignmentRowData :=
  [⟨0, 1, cexScan cexR0⟩, ⟨2, 3, cexScan cexR1⟩]

/-- The matrix `afrMatrix` produces on the counterexample rows. -/
def cexMatrix : List (List AlignmentCell) :=
  [[⟨0, 1, 2, 0⟩], [⟨2, 3, 2, 0⟩]]

/-- The facts the alignment pipeline establishes for one row before the
final respacing loop (collected for the corrected C5 bound): ranges,
uniform indentation, matrix shape, measured widths, column domination,
head-cell tiling, and the epilog budget. -/
def rowOk (cfgs : List AlignedColumnConfiguration)
    (props : List AlignmentColumnProperties) (limit I : Int)
    (buf : TokBuf) (r : RowPartition) (rd : AlignmentRowData)
    (mrow : List AlignmentCell) : Prop :=
  rd.b = r.b ∧ r.b ≤ rd.e ∧ rd.e ≤ r.e ∧ r.e ≤ buf.length ∧
  r.indent = I ∧
  mrow.length = cfgs.length ∧ mrow.length = props.length ∧
  (∀ c ∈ mrow, ¬ c.e ≤ c.b →
    c.compact_width = EffectiveCellWidth buf c.b c.e) ∧
  (∀ (j : Nat) (c : AlignmentCell) (cfg : AlignedColumnConfiguration),
    mrow[j]? = some c → cfgs[j]? = some cfg →
    (¬ c.e ≤ c.b → c.compact_width ≤ cfg.width) ∧
    0 ≤ cfg.width ∧ 0 ≤ cfg.left_border) ∧
  (∀ c0 : AlignmentCell, mrow.head? = some c0 →
    rd.b ≤ c0.b ∧ cellsTile c0.b rd.e mrow) ∧
  (∀ cl : AlignmentCell, mrow.getLast? = some cl →
    I + (cfgs.map TotalWidth).sum +
      EffectiveCellWidth buf cl.e r.e ≤ limit)

end AlignM

namespace GroupM

/-- A token's text span: the half-open byte range `[begin, end)` of its
text inside the full source text. -/
abbrev TokenSpan := Nat × Nat

/-- A child partition's `TokensRange()`, as the list of its tokens'
text spans. -/
abbrev ChildTokens := List TokenSpan

/-- The newline character. -/
def newlineChar : Char := Char.ofNat 10

/-- Number of newline characters in `text[a..b)` (the
`std::count(gap.begin(), gap.end(), newline)` of the detector). -/
def countNewlines (text : List Char) (a b : Nat) : Nat :=
  ((text.drop a).take (b - a)).count newlineChar

/-- `BlankLineSeparatorDetector::operator()` (align.cc lines 50-60):
given `previous_end_`, return the updated state and whether this node
begins a new group (the gap up to the node's first token holds 2+
newlines).  Empty token ranges return false without touching the
state. -/
def detectorStep (text : List Char) (prevEnd : Nat) (child : ChildTokens) :
    Nat × Bool :=
  match child.head?, child.getLast? with
  | some f, some l => (l.2, decide (2 ≤ countNewlines text prevEnd f.1))
  | _, _ => (prevEnd, false)

/-- The detector's initial `previous_end_`
(`bounds.front()...front().token->text.begin()`). -/
def detectorInit (children : List ChildTokens) : Nat :=
  match children with
  | [] => 0
  | c0 :: _ =>
    match c0.head? with
    | some f => f.1
    | none => 0

/-- The sequence of detector evaluations `verible::find_all` performs
over the children, in order. -/
def detectorFlags (text : List Char) :
    Nat → List ChildTokens → List Bool
  | _, [] => []
  | prevEnd, c :: rest =>
    (detectorStep text prevEnd c).2 ::
      detectorFlags text (detectorStep text prevEnd c).1 rest

/-- `FindPartitionGroupBoundaries` (align.cc lines 69-84): empty bounds
produce no boundaries; otherwise the begin iterator, then every child
index at which the blank-line detector fires, then the end iterator. -/
def FindPartitionGroupBoundaries (text : List Char)
    (children : List ChildTokens) : List Nat :=
  if children.isEmpty then []
  else
    0 :: (((List.range children.length).filter (fun k =>
      (detectorFlags text (detectorInit children) children).getD k false)) ++
      [children.length])

/-- The begin offset of a child's first token (0 when empty; only used
under non-emptiness hypotheses). -/
def childBegin (c : ChildTokens) : Nat := (c.head?.map Prod.fst).getD 0

/-- The end offset of a child's last token. -/
def childEnd (c : ChildTokens) : Nat := (c.getLast?.map Prod.snd).getD 0

/-- Example source text for witnesses: one token, a blank line, then
another token. -/
def exText : List Char := [Char.ofNat 97, Char.ofNat 10, Char.ofNat 10,
  Char.ofNat 98]

/-- Example children for witnesses: two one-token partitions separated
by the blank line. -/
def exChildren : List ChildTokens := [[(0, 1)], [(3, 4)]]

end GroupM

namespace IntervalSetM

theorem canonical_iff (l : ISet) :
    Canonical l ↔ (∀ p ∈ l, p.1 < p.2) ∧ l.Chain' (fun p q => p.2 < q.1) := by
  induction l with
  | nil => simp [Canonical, canonicalB]
  | cons a t ih =>
    cases t with
    | nil => simp [Canonical, canonicalB]
    | cons b t2 =>
      simp only [Canonical, canonicalB, Bool.and_eq_true, decide_eq_true_eq,
        List.chain'_cons, List.mem_cons, forall_eq_or_imp] at *
      constructor
      · rintro ⟨⟨h1, h2⟩, h3⟩
        rcases ih.mp h3 with ⟨h4, h5⟩
        exact ⟨⟨h1, h4⟩, h2, h5⟩
      · rintro ⟨⟨h1, h4⟩, h2, h5⟩
        exact ⟨⟨h1, h2⟩, ih.mpr ⟨h4, h5⟩⟩

theorem canonical_tail {a : Entry} {t : ISet} (h : Canonical (a :: t)) :
    Canonical t := by
  rcases (canonical_iff _).mp h with ⟨hv, hc⟩
  exact (canonical_iff t).mpr
    ⟨fun p hp => hv p (List.mem_cons_of_mem a hp), (List.chain'_cons'.mp hc).2⟩

theorem canonical_pairwise {l : ISet} (h : Canonical l) :
    l.Pairwise fun p q => p.2 < q.1 := by
  induction l with
  | nil => simp
  | cons a t ih =>
    rcases (canonical_iff _).mp h with ⟨hv, hc⟩
    rcases List.chain'_cons'.mp hc with ⟨hhead, _⟩
    refine List.pairwise_cons.mpr ⟨?_, ih (canonical_tail h)⟩
    intro b hb
    cases t with
    | nil => simp at hb
    | cons c t2 =>
      have hac : a.2 < c.1 := hhead c rfl
      rcases List.mem_cons.mp hb with hbc | hb2
      · subst hbc; exact hac
      · have hcb : c.2 < b.1 :=
          (List.pairwise_cons.mp (ih (canonical_tail h))).1 b hb2
        have hcv : c.1 < c.2 := hv c (by simp)
        omega

theorem canonical_valid {l : ISet} (h : Canonical l) {k : Nat} {p : Entry}
    (hp : l[k]? = some p) : p.1 < p.2 := by
  rcases (canonical_iff _).mp h with ⟨hv, _⟩
  exact hv p (List.mem_iff_getElem?.mpr ⟨k, hp⟩)

theorem canonical_sep {l : ISet} (h : Canonical l) {k1 k2 : Nat} {p q : Entry}
    (hlt : k1 < k2) (hp : l[k1]? = some p) (hq : l[k2]? = some q) :
    p.2 < q.1 := by
  rcases List.getElem?_eq_some.mp hp with ⟨hk1, hp'⟩
  rcases List.getElem?_eq_some.mp hq with ⟨hk2, hq'⟩
  have := List.pairwise_iff_getElem.mp (canonical_pairwise h) k1 k2 hk1 hk2 hlt
  rw [hp', hq'] at this
  exact this

theorem canonical_key_mono {l : ISet} (h : Canonical l) {k1 k2 : Nat}
    {p q : Entry} (hlt : k1 < k2) (hp : l[k1]? = some p)
    (hq : l[k2]? = some q) : p.1 < q.1 := by
  have h1 := canonical_sep h hlt hp hq
  have h2 := canonical_valid h hp
  omega

theorem canonical_max_mono {l : ISet} (h : Canonical l) {k1 k2 : Nat}
    {p q : Entry} (hlt : k1 < k2) (hp : l[k1]? = some p)
    (hq : l[k2]? = some q) : p.2 < q.2 := by
  have h1 := canonical_sep h hlt hp hq
  have h2 := canonical_valid h hq
  omega

theorem lowerBoundIdx_le_length (l : ISet) (v : Nat) :
    lowerBoundIdx l v ≤ l.length := by
  induction l with
  | nil => simp [lowerBoundIdx]
  | cons p t ih =>
    simp only [lowerBoundIdx, List.length_cons]
    split
    · exact Nat.zero_le _
    · exact Nat.succ_le_succ ih

theorem upperBoundIdx_le_length (l : ISet) (v : Nat) :
    upperBoundIdx l v ≤ l.length := by
  induction l with
  | nil => simp [upperBoundIdx]
  | cons p t ih =>
    simp only [upperBoundIdx, List.length_cons]
    split
    · exact Nat.zero_le _
    · exact Nat.succ_le_succ ih

theorem lowerBoundIdx_mono (l : ISet) {v w : Nat} (h : v ≤ w) :
    lowerBoundIdx l v ≤ lowerBoundIdx l w := by
  induction l with
  | nil => simp [lowerBoundIdx]
  | cons p t ih =>
    simp only [lowerBoundIdx]
    by_cases hw : w ≤ p.1
    · simp [if_pos (le_trans h hw), if_pos hw]
    · rw [if_neg hw]
      by_cases hv : v ≤ p.1
      · rw [if_pos hv]; exact Nat.zero_le _
      · rw [if_neg hv]; exact Nat.succ_le_succ ih

theorem key_lt_of_lt_lowerBoundIdx {l : ISet} {v k : Nat} {p : Entry}
    (hk : k < lowerBoundIdx l v) (hp : l[k]? = some p) : p.1 < v := by
  induction l generalizing k with
  | nil => simp at hp
  | cons q t ih =>
    simp only [lowerBoundIdx] at hk
    by_cases hc : v ≤ q.1
    · rw [if_pos hc] at hk; omega
    · rw [if_neg hc] at hk
      cases k with
      | zero =>
        simp only [List.getElem?_cons_zero, Option.some.injEq] at hp
        subst hp; omega
      | succ k2 =>
        have hp2 : t[k2]? = some p := by simpa using hp
        refine ih ?_ hp2
        omega

theorem lowerBoundIdx_key {l : ISet} {v : Nat} {p : Entry}
    (hp : l[lowerBoundIdx l v]? = some p) : v ≤ p.1 := by
  induction l with
  | nil => simp at hp
  | cons q t ih =>
    simp only [lowerBoundIdx] at hp
    by_cases hc : v ≤ q.1
    · rw [if_pos hc] at hp
      simp only [List.getElem?_cons_zero, Option.some.injEq] at hp
      subst hp; exact hc
    · rw [if_neg hc] at hp
      exact ih (by simpa using hp)

theorem le_key_of_lowerBoundIdx_le {l : ISet} (hl : Canonical l)
    {v k : Nat} {p : Entry} (hk : lowerBoundIdx l v ≤ k)
    (hp : l[k]? = some p) : v ≤ p.1 := by
  rcases Nat.eq_or_lt_of_le hk with he | hlt
  · subst he; exact lowerBoundIdx_key hp
  · rcases List.getElem?_eq_some.mp hp with ⟨hklen, _⟩
    have hlbl : lowerBoundIdx l v < l.length := lt_trans hlt hklen
    have hq : l[lowerBoundIdx l v]? = some l[lowerBoundIdx l v] :=
      List.getElem?_eq_getElem hlbl
    have h1 : v ≤ l[lowerBoundIdx l v].1 := lowerBoundIdx_key hq
    have h2 := canonical_key_mono hl hlt hq hp
    omega

theorem lt_lowerBoundIdx_of_key_lt {l : ISet} (hl : Canonical l)
    {v k : Nat} {p : Entry} (hp : l[k]? = some p) (h : p.1 < v) :
    k < lowerBoundIdx l v := by
  by_contra hc
  have := le_key_of_lowerBoundIdx_le hl (Nat.le_of_not_lt hc) hp
  omega

theorem key_le_of_lt_upperBoundIdx {l : ISet} {v k : Nat} {p : Entry}
    (hk : k < upperBoundIdx l v) (hp : l[k]? = some p) : p.1 ≤ v := by
  induction l generalizing k with
  | nil => simp at hp
  | cons q t ih =>
    simp only [upperBoundIdx] at hk
    by_cases hc : v < q.1
    · rw [if_pos hc] at hk; omega
    · rw [if_neg hc] at hk
      cases k with
      | zero =>
        simp only [List.getElem?_cons_zero, Option.some.injEq] at hp
        subst hp; omega
      | succ k2 =>
        have hp2 : t[k2]? = some p := by simpa using hp
        refine ih ?_ hp2
        omega

theorem upperBoundIdx_key {l : ISet} {v : Nat} {p : Entry}
    (hp : l[upperBoundIdx l v]? = some p) : v < p.1 := by
  induction l with
  | nil => simp at hp
  | cons q t ih =>
    simp only [upperBoundIdx] at hp
    by_cases hc : v < q.1
    · rw [if_pos hc] at hp
      simp only [List.getElem?_cons_zero, Option.some.injEq] at hp
      subst hp; exact hc
    · rw [if_neg hc] at hp
      exact ih (by simpa using hp)

theorem memB_iff {l : ISet} {v : Nat} :
    memB l v = true ↔ ∃ (k : Nat) (p : Entry), l[k]? = some p ∧ icontains p v = true := by
  simp only [memB, List.any_eq_true, List.mem_iff_getElem?]
  constructor
  · rintro ⟨p, ⟨k, hk⟩, hc⟩
    exact ⟨k, p, hk, hc⟩
  · rintro ⟨k, p, hk, hc⟩
    exact ⟨p, ⟨k, hk⟩, hc⟩

theorem icontains_true {p : Entry} {v : Nat} (h : icontains p v = true) :
    p.1 ≤ v ∧ v < p.2 := by
  simpa only [icontains, Bool.and_eq_true, decide_eq_true_eq] using h

theorem icontains_of {p : Entry} {v : Nat} (h1 : p.1 ≤ v) (h2 : v < p.2) :
    icontains p v = true := by
  simp only [icontains, Bool.and_eq_true, decide_eq_true_eq]
  exact ⟨h1, h2⟩

theorem icontains_false {p : Entry} {v : Nat} (h : icontains p v = false) :
    ¬(p.1 ≤ v ∧ v < p.2) := by
  intro hc
  rw [icontains_of hc.1 hc.2] at h
  simp at h

theorem getD_some {l : ISet} {k : Nat} (h : k < l.length) :
    l[k]? = some (l.getD k (0, 0)) := by
  rw [List.getD_eq_getElem?_getD, List.getElem?_eq_getElem h]
  rfl

theorem findLowerBoundIdx_le (l : ISet) (v : Nat) :
    findLowerBoundIdx l v ≤ lowerBoundIdx l v := by
  unfold findLowerBoundIdx
  split
  · omega
  · split <;> omega

theorem findLowerBoundIdx_ge (l : ISet) (v : Nat) :
    lowerBoundIdx l v - 1 ≤ findLowerBoundIdx l v := by
  unfold findLowerBoundIdx
  split
  · omega
  · split <;> omega

theorem addHit_true {l : ISet} {v : Nat} (h : addHit l v = true) :
    ∃ p, l[findLowerBoundIdx l v]? = some p ∧ icontains p v = true ∧
      addNewMax l v = p.2 ∧ addEraseEnd l v = findLowerBoundIdx l v + 1 := by
  have h2 := h
  unfold addHit at h2
  simp only [Bool.and_eq_true, decide_eq_true_eq] at h2
  refine ⟨l.getD (findLowerBoundIdx l v) (0, 0), getD_some h2.1, h2.2, ?_, ?_⟩
  · unfold addNewMax; rw [if_pos h]
  · unfold addEraseEnd; rw [if_pos h]

theorem addHit_false {l : ISet} {v : Nat} (h : addHit l v = false) :
    findLowerBoundIdx l v = lowerBoundIdx l v ∧
    addNewMax l v = v ∧ addEraseEnd l v = lowerBoundIdx l v ∧
    ∀ p, l[lowerBoundIdx l v]? = some p → icontains p v = false := by
  have hf : findLowerBoundIdx l v = lowerBoundIdx l v := by
    unfold findLowerBoundIdx
    split
    · omega
    · split
      · rename_i h0 hc
        exfalso
        have hlen : lowerBoundIdx l v - 1 < l.length := by
          have := lowerBoundIdx_le_length l v
          omega
        have hhit : addHit l v = true := by
          unfold addHit
          rw [show findLowerBoundIdx l v = lowerBoundIdx l v - 1 by
            unfold findLowerBoundIdx
            rw [if_neg h0, if_pos hc]]
          simp only [Bool.and_eq_true, decide_eq_true_eq]
          exact ⟨hlen, hc⟩
        rw [h] at hhit
        exact Bool.false_ne_true hhit
      · rfl
  refine ⟨hf, ?_, ?_, ?_⟩
  · unfold addNewMax; rw [h]; rfl
  · unfold addEraseEnd; rw [h]; simp [hf]
  · intro p hp
    cases hx : icontains p v
    · rfl
    exfalso
    have hlen : lowerBoundIdx l v < l.length := (List.getElem?_eq_some.mp hp).1
    have hhit : addHit l v = true := by
      unfold addHit
      rw [hf]
      simp only [Bool.and_eq_true, decide_eq_true_eq]
      have : l.getD (lowerBoundIdx l v) (0, 0) = p := by
        have h2 := getD_some (l := l) (k := lowerBoundIdx l v) hlen
        rw [hp] at h2
        exact (Option.some.injEq _ _).mp h2.symm
      rw [this]
      exact ⟨hlen, hx⟩
    rw [h] at hhit
    exact Bool.false_ne_true hhit

theorem addHit_false_prev {l : ISet} {v : Nat} (h : addHit l v = false)
    {p : Entry} (hp : l[lowerBoundIdx l v - 1]? = some p)
    (h1 : 1 ≤ lowerBoundIdx l v) : icontains p v = false := by
  by_contra hc
  have hc2 : icontains p v = true := by
    cases hx : icontains p v
    · exact absurd hx hc
    · rfl
  have hlen : lowerBoundIdx l v - 1 < l.length := (List.getElem?_eq_some.mp hp).1
  have hgd : l.getD (lowerBoundIdx l v - 1) (0, 0) = p := by
    have h2 := getD_some (l := l) (k := lowerBoundIdx l v - 1) hlen
    rw [hp] at h2
    exact (Option.some.injEq _ _).mp h2.symm
  have hf : findLowerBoundIdx l v = lowerBoundIdx l v - 1 := by
    unfold findLowerBoundIdx
    rw [if_neg (by omega), hgd, if_pos hc2]
  have hhit : addHit l v = true := by
    unfold addHit
    rw [hf, hgd]
    simp only [Bool.and_eq_true, decide_eq_true_eq]
    exact ⟨hlen, hc2⟩
  rw [h] at hhit
  exact Bool.false_ne_true hhit

theorem le_addNewMax (l : ISet) (v : Nat) : v ≤ addNewMax l v := by
  cases h : addHit l v
  · rw [(addHit_false h).2.1]
  · obtain ⟨p, _, hc, hM, _⟩ := addHit_true h
    have := icontains_true hc
    omega

theorem addEraseEnd_le_length (l : ISet) (v : Nat) :
    addEraseEnd l v ≤ l.length := by
  cases h : addHit l v
  · rw [(addHit_false h).2.2.1]
    exact lowerBoundIdx_le_length l v
  · obtain ⟨p, hp, _, _, hE⟩ := addHit_true h
    have := (List.getElem?_eq_some.mp hp).1
    omega

theorem lowerBoundIdx_le_addEraseEnd (l : ISet) (v : Nat) :
    lowerBoundIdx l v ≤ addEraseEnd l v := by
  cases h : addHit l v
  · rw [(addHit_false h).2.2.1]
  · obtain ⟨p, _, _, _, hE⟩ := addHit_true h
    have := findLowerBoundIdx_ge l v
    have := lowerBoundIdx_le_length l v
    omega

theorem addEraseEnd_key {l : ISet} (hl : Canonical l) (v : Nat) {y : Entry}
    (hy : l[addEraseEnd l v]? = some y) : addNewMax l v < y.1 := by
  cases h : addHit l v
  · obtain ⟨hf, hM, hE, hNo⟩ := addHit_false h
    rw [hE] at hy
    have h1 : v ≤ y.1 := lowerBoundIdx_key hy
    have h2 := icontains_false (hNo y hy)
    have h3 := canonical_valid hl hy
    rw [hM]
    rcases Nat.eq_or_lt_of_le h1 with he | hlt
    · exfalso
      apply h2
      constructor <;> omega
    · exact hlt
  · obtain ⟨p, hp, hc, hM, hE⟩ := addHit_true h
    rw [hE] at hy
    rw [hM]
    exact canonical_sep hl (Nat.lt_succ_self _) hp hy

theorem addEraseEnd_upper {l : ISet} (hl : Canonical l) (v : Nat) {k : Nat}
    {p : Entry} (hk : k < addEraseEnd l v) (hp : l[k]? = some p) :
    p.2 ≤ addNewMax l v := by
  cases h : addHit l v
  · obtain ⟨hf, hM, hE, _⟩ := addHit_false h
    rw [hE] at hk
    rw [hM]
    -- every erased entry lies below `v`: its max cannot exceed `v`
    have haux : ∀ q : Entry, l[lowerBoundIdx l v - 1]? = some q → q.2 ≤ v := by
      intro q hq
      have h1 : 1 ≤ lowerBoundIdx l v := by omega
      have h2 := icontains_false (addHit_false_prev h hq h1)
      have h3 : q.1 < v := key_lt_of_lt_lowerBoundIdx (by omega) hq
      by_contra hcon
      apply h2
      constructor <;> omega
    rcases Nat.lt_or_ge k (lowerBoundIdx l v - 1) with hlt | hge
    · have hlen : lowerBoundIdx l v - 1 < l.length := by
        have := (List.getElem?_eq_some.mp hp).1
        have := lowerBoundIdx_le_length l v
        omega
      have hq : l[lowerBoundIdx l v - 1]? = some l[lowerBoundIdx l v - 1] :=
        List.getElem?_eq_getElem hlen
      have h4 := canonical_max_mono hl hlt hp hq
      have h5 := haux _ hq
      omega
    · have hke : k = lowerBoundIdx l v - 1 := by omega
      subst hke
      exact haux p hp
  · obtain ⟨q, hq, hc, hM, hE⟩ := addHit_true h
    rw [hE] at hk
    rw [hM]
    rcases Nat.lt_or_ge k (findLowerBoundIdx l v) with hlt | hge
    · exact Nat.le_of_lt (canonical_max_mono hl hlt hp hq)
    · have hke : k = findLowerBoundIdx l v := by omega
      subst hke
      rw [hp] at hq
      rw [(Option.some.injEq _ _).mp hq]

theorem addNewMax_covered {l : ISet} {v w : Nat}
    (h1 : v ≤ w) (h2 : w < addNewMax l v) : memB l w = true := by
  cases h : addHit l v
  · rw [(addHit_false h).2.1] at h2
    omega
  · obtain ⟨p, hp, hc, hM, _⟩ := addHit_true h
    rw [hM] at h2
    have hc2 := icontains_true hc
    refine memB_iff.mpr ⟨findLowerBoundIdx l v, p, hp, icontains_of ?_ ?_⟩ <;> omega

theorem memB_mem {l : ISet} {v : Nat} :
    memB l v = true ↔ ∃ p ∈ l, icontains p v = true := List.any_eq_true

theorem add_shape {l : ISet} (hl : Canonical l) {lo hi : Nat}
    (hlohi : lo < hi) :
    ∃ A B m M, A ≤ B ∧ B ≤ l.length ∧
      Add l lo hi = l.take A ++ (m, M) :: l.drop B ∧
      m ≤ lo ∧ hi ≤ M ∧
      (∀ (k : Nat) (p : Entry), k < A → l[k]? = some p → p.2 < m) ∧
      (∀ y : Entry, l[B]? = some y → M < y.1) ∧
      (∀ v, m ≤ v → v < M → (lo ≤ v ∧ v < hi) ∨ memB l v = true) ∧
      (∀ (k : Nat) (p : Entry), A ≤ k → k < B → l[k]? = some p →
        m ≤ p.1 ∧ p.2 ≤ M) := by
  have hnle : ¬hi ≤ lo := by omega
  have hElen := addEraseEnd_le_length l hi
  have hhiM := le_addNewMax l hi
  have hiE : lowerBoundIdx l lo ≤ addEraseEnd l hi :=
    le_trans (lowerBoundIdx_mono l (Nat.le_of_lt hlohi))
      (lowerBoundIdx_le_addEraseEnd l hi)
  have hsuf : ∀ y : Entry, l[addEraseEnd l hi]? = some y →
      addNewMax l hi < y.1 := fun y hy => addEraseEnd_key hl hi hy
  have hmid2 : ∀ (k : Nat) (p : Entry), k < addEraseEnd l hi →
      l[k]? = some p → p.2 ≤ addNewMax l hi :=
    fun k p hk hp => addEraseEnd_upper hl hi hk hp
  have hcovgen : ∀ m : Nat, m ≤ lo →
      (∀ v, m ≤ v → v < lo → memB l v = true) →
      ∀ v, m ≤ v → v < addNewMax l hi →
        (lo ≤ v ∧ v < hi) ∨ memB l v = true := by
    intro m hm hlow v h1 h2
    rcases Nat.lt_or_ge v lo with hv | hv
    · exact Or.inr (hlow v h1 hv)
    rcases Nat.lt_or_ge v hi with hv2 | hv2
    · exact Or.inl ⟨hv, hv2⟩
    · exact Or.inr (addNewMax_covered hv2 h2)
  by_cases hkey : lowerBoundIdx l lo < l.length ∧
      (l.getD (lowerBoundIdx l lo) (0, 0)).1 = lo
  · -- branch 1: entry keyed lo already exists at the insert position
    obtain ⟨hilen, hikey⟩ := hkey
    have hpi : l[lowerBoundIdx l lo]? =
        some (l.getD (lowerBoundIdx l lo) (0, 0)) := getD_some hilen
    refine ⟨lowerBoundIdx l lo, addEraseEnd l hi, lo, addNewMax l hi,
      hiE, hElen, ?_, le_refl lo, hhiM, ?_, hsuf, ?_, ?_⟩
    · unfold Add
      rw [if_neg hnle, if_pos ⟨hilen, hikey⟩]
    · intro k p hk hp
      have hsep := canonical_sep hl hk hp hpi
      rw [hikey] at hsep
      exact hsep
    · refine hcovgen lo (le_refl lo) ?_
      intro v h1 h2
      omega
    · intro k p hk1 hk2 hp
      exact ⟨le_key_of_lowerBoundIdx_le hl hk1 hp, hmid2 k p hk2 hp⟩
  · by_cases hzero : lowerBoundIdx l lo = 0
    · -- branch 2: fresh entry inserted at begin()
      refine ⟨0, addEraseEnd l hi, lo, addNewMax l hi, Nat.zero_le _, hElen,
        ?_, le_refl lo, hhiM, ?_, hsuf, ?_, ?_⟩
      · unfold Add
        rw [if_neg hnle, if_neg hkey, if_pos hzero]
        simp
      · intro k p hk hp
        omega
      · refine hcovgen lo (le_refl lo) ?_
        intro v h1 h2
        omega
      · intro k p hk1 hk2 hp
        refine ⟨le_key_of_lowerBoundIdx_le hl ?_ hp, hmid2 k p hk2 hp⟩
        omega
    · have hi1 : 1 ≤ lowerBoundIdx l lo := by omega
      have hiprevlen : lowerBoundIdx l lo - 1 < l.length := by
        have := lowerBoundIdx_le_length l lo
        rcases Nat.lt_or_ge (lowerBoundIdx l lo - 1) l.length with h | h
        · exact h
        · omega
      have hprev : l[lowerBoundIdx l lo - 1]? =
          some (l.getD (lowerBoundIdx l lo - 1) (0, 0)) := getD_some hiprevlen
      have hprevkey : (l.getD (lowerBoundIdx l lo - 1) (0, 0)).1 < lo :=
        key_lt_of_lt_lowerBoundIdx (by omega) hprev
      by_cases hfuse : lo ≤ (l.getD (lowerBoundIdx l lo - 1) (0, 0)).2
      · -- branch 3: predecessor abuts or overlaps; extend it
        refine ⟨lowerBoundIdx l lo - 1, addEraseEnd l hi,
          (l.getD (lowerBoundIdx l lo - 1) (0, 0)).1, addNewMax l hi,
          by omega, hElen, ?_, Nat.le_of_lt hprevkey, hhiM, ?_, hsuf, ?_, ?_⟩
        · unfold Add
          rw [if_neg hnle, if_neg hkey, if_neg hzero, if_pos hfuse]
        · intro k p hk hp
          exact canonical_sep hl hk hp hprev
        · refine hcovgen _ (Nat.le_of_lt hprevkey) ?_
          intro v h1 h2
          refine memB_mem.mpr ⟨l.getD (lowerBoundIdx l lo - 1) (0, 0),
            List.mem_iff_getElem?.mpr ⟨_, hprev⟩, icontains_of h1 ?_⟩
          omega
        · intro k p hk1 hk2 hp
          refine ⟨?_, hmid2 k p hk2 hp⟩
          rcases Nat.eq_or_lt_of_le hk1 with he | hlt
          · rw [← he] at hp
            rw [hprev] at hp
            rw [(Option.some.injEq _ _).mp hp]
          · have hge : lo ≤ p.1 :=
              le_key_of_lowerBoundIdx_le hl (by omega) hp
            omega
      · -- branch 4: fresh entry kept after a strictly separated predecessor
        refine ⟨lowerBoundIdx l lo, addEraseEnd l hi, lo, addNewMax l hi,
          hiE, hElen, ?_, le_refl lo, hhiM, ?_, hsuf, ?_, ?_⟩
        · unfold Add
          rw [if_neg hnle, if_neg hkey, if_neg hzero, if_neg hfuse]
        · intro k p hk hp
          rcases Nat.eq_or_lt_of_le (Nat.succ_le_of_lt hk) with he | hlt
          · have hke : k = lowerBoundIdx l lo - 1 := by omega
            rw [hke, hprev] at hp
            rw [← (Option.some.injEq _ _).mp hp]
            omega
          · have hksep := canonical_sep hl (show k < lowerBoundIdx l lo - 1 by
              omega) hp hprev
            have hval := canonical_valid hl hprev
            omega
        · refine hcovgen lo (le_refl lo) ?_
          intro v h1 h2
          omega
        · intro k p hk1 hk2 hp
          exact ⟨le_key_of_lowerBoundIdx_le hl hk1 hp, hmid2 k p hk2 hp⟩

theorem add_canonical {l : ISet} (hl : Canonical l) (lo hi : Nat) :
    Canonical (Add l lo hi) := by
  by_cases hle : hi ≤ lo
  · unfold Add
    rw [if_pos hle]
    exact hl
  · obtain ⟨A, B, m, M, hAB, hBlen, hEq, hmlo, hhiM, hpre, hsuf, _, _⟩ :=
      add_shape hl (show lo < hi by omega)
    rw [hEq, canonical_iff]
    have hlv := ((canonical_iff l).mp hl).1
    constructor
    · intro p hp
      rcases List.mem_append.mp hp with h1 | h2
      · exact hlv p (List.mem_of_mem_take h1)
      · rcases List.mem_cons.mp h2 with h3 | h4
        · rw [h3]
          simp only
          omega
        · exact hlv p (List.mem_of_mem_drop h4)
    · rw [List.chain'_append]
      refine ⟨List.Pairwise.chain'
        ((canonical_pairwise hl).sublist (List.take_sublist A l)), ?_, ?_⟩
      · rw [List.chain'_cons']
        refine ⟨?_, List.Pairwise.chain'
          ((canonical_pairwise hl).sublist (List.drop_sublist B l))⟩
        intro y hy
        have hyB : l[B]? = some y := by
          rw [← List.head?_drop]
          exact hy
        exact hsuf y hyB
      · intro x hx y hy
        have hyv : y = (m, M) := by
          simp only [List.head?_cons, Option.mem_def, Option.some.injEq] at hy
          exact hy.symm
        rw [hyv]
        rcases Nat.eq_zero_or_pos A with h0 | h1
        · rw [h0] at hx
          simp at hx
        · have hA1 : A - 1 < l.length := by omega
          rw [List.getLast?_take, if_neg (by omega),
            List.getElem?_eq_getElem hA1, Option.or_some] at hx
          simp only [Option.mem_def, Option.some.injEq] at hx
          have hxA : l[A-1]? = some x := by
            rw [List.getElem?_eq_getElem hA1, hx]
          exact hpre (A - 1) x (by omega) hxA

theorem add_memB {l : ISet} (hl : Canonical l) {lo hi : Nat} (hle : lo ≤ hi)
    (v : Nat) :
    memB (Add l lo hi) v =
      (memB l v || (decide (lo ≤ v) && decide (v < hi))) := by
  rcases Nat.eq_or_lt_of_le hle with he | hlt
  · subst he
    have h1 : Add l lo lo = l := by
      unfold Add
      rw [if_pos (le_refl lo)]
    have h2 : (decide (lo ≤ v) && decide (v < lo)) = false := by
      rcases Nat.lt_or_ge v lo with h | h
      · simp [Nat.not_le.mpr h]
      · simp [Nat.not_lt.mpr h]
    rw [h1, h2, Bool.or_false]
  · obtain ⟨A, B, m, M, hAB, hBlen, hEq, hmlo, hhiM, hpre, hsuf, hcov, hmid⟩ :=
      add_shape hl hlt
    rw [hEq, Bool.eq_iff_iff]
    simp only [Bool.or_eq_true, Bool.and_eq_true, decide_eq_true_eq]
    constructor
    · intro h
      rcases memB_mem.mp h with ⟨p, hp, hc⟩
      rcases List.mem_append.mp hp with h1 | h2
      · exact Or.inl (memB_mem.mpr ⟨p, List.mem_of_mem_take h1, hc⟩)
      · rcases List.mem_cons.mp h2 with h3 | h4
        · rw [h3] at hc
          have hc2 := icontains_true hc
          rcases hcov v hc2.1 hc2.2 with hin | hm
          · exact Or.inr hin
          · exact Or.inl hm
        · exact Or.inl (memB_mem.mpr ⟨p, List.mem_of_mem_drop h4, hc⟩)
    · intro h
      rcases h with hm | hin
      · rcases memB_iff.mp hm with ⟨k, p, hk, hc⟩
        rcases Nat.lt_or_ge k A with hkA | hkA
        · refine memB_mem.mpr ⟨p, List.mem_append.mpr (Or.inl ?_), hc⟩
          refine List.mem_iff_getElem?.mpr ⟨k, ?_⟩
          rw [List.getElem?_take, if_pos hkA]
          exact hk
        · rcases Nat.lt_or_ge k B with hkB | hkB
          · have hc2 := icontains_true hc
            have hpm := hmid k p hkA hkB hk
            refine memB_mem.mpr ⟨(m, M), List.mem_append.mpr (Or.inr ?_),
              icontains_of ?_ ?_⟩
            · exact List.mem_cons_self _ _
            · simp only
              omega
            · simp only
              omega
          · refine memB_mem.mpr ⟨p, List.mem_append.mpr (Or.inr
              (List.mem_cons_of_mem _ ?_)), hc⟩
            refine List.mem_iff_getElem?.mpr ⟨k - B, ?_⟩
            rw [List.getElem?_drop]
            rw [show B + (k - B) = k by omega]
            exact hk
      · refine memB_mem.mpr ⟨(m, M), List.mem_append.mpr (Or.inr
          (List.mem_cons_self _ _)), icontains_of ?_ ?_⟩
        · simp only
          omega
        · simp only
          omega

theorem lt_upperBoundIdx_of_key_le {l : ISet} (hl : Canonical l)
    {v k : Nat} {p : Entry} (hp : l[k]? = some p) (h : p.1 ≤ v) :
    k < upperBoundIdx l v := by
  by_contra hc
  have hk : upperBoundIdx l v ≤ k := Nat.le_of_not_lt hc
  rcases Nat.eq_or_lt_of_le hk with he | hlt2
  · rw [← he] at hp
    have := upperBoundIdx_key hp
    omega
  · rcases List.getElem?_eq_some.mp hp with ⟨hklen, _⟩
    have hu : upperBoundIdx l v < l.length := lt_trans hlt2 hklen
    have hq : l[upperBoundIdx l v]? = some l[upperBoundIdx l v] :=
      List.getElem?_eq_getElem hu
    have h1 := upperBoundIdx_key hq
    have h2 := canonical_key_mono hl hlt2 hq hp
    omega

theorem contains_eq_memB {l : ISet} (hl : Canonical l) (v : Nat) :
    Contains l v = memB l v := by
  unfold Contains findIdx
  by_cases h0 : upperBoundIdx l v = 0
  · rw [if_pos h0]
    symm
    cases hm : memB l v
    · rfl
    · exfalso
      rcases memB_iff.mp hm with ⟨k, p, hk, hc⟩
      have := lt_upperBoundIdx_of_key_le hl hk (icontains_true hc).1
      omega
  · rw [if_neg h0]
    have hulen : upperBoundIdx l v - 1 < l.length := by
      have := upperBoundIdx_le_length l v
      omega
    have hq : l[upperBoundIdx l v - 1]? =
        some (l.getD (upperBoundIdx l v - 1) (0, 0)) := getD_some hulen
    by_cases hcq : icontains (l.getD (upperBoundIdx l v - 1) (0, 0)) v = true
    · rw [if_pos hcq]
      symm
      exact memB_mem.mpr ⟨_, List.mem_iff_getElem?.mpr ⟨_, hq⟩, hcq⟩
    · rw [if_neg hcq]
      symm
      cases hm : memB l v
      · rfl
      · exfalso
        rcases memB_iff.mp hm with ⟨k, p, hk, hc⟩
        have hc2 := icontains_true hc
        have hklt := lt_upperBoundIdx_of_key_le hl hk hc2.1
        rcases Nat.eq_or_lt_of_le (Nat.succ_le_of_lt hklt) with he | hlt2
        · have hke : k = upperBoundIdx l v - 1 := by omega
          rw [hke, hq] at hk
          rw [(Option.some.injEq _ _).mp hk] at hcq
          exact hcq hc
        · have hsep := canonical_sep hl
            (show k < upperBoundIdx l v - 1 by omega) hk hq
          have hqkey : (l.getD (upperBoundIdx l v - 1) (0, 0)).1 ≤ v :=
            key_le_of_lt_upperBoundIdx (by omega) hq
          omega

theorem head_key_min {a : Entry} {t : ISet} (h : Canonical (a :: t)) :
    ∀ p ∈ a :: t, a.1 ≤ p.1 := by
  intro p hp
  rcases List.mem_cons.mp hp with he | ht
  · rw [he]
  · have hpw := (List.pairwise_cons.mp (canonical_pairwise h)).1 p ht
    have hv := ((canonical_iff _).mp h).1 a (List.mem_cons_self _ _)
    omega

theorem memB_head_max {a : Entry} {t : ISet} (h : Canonical (a :: t)) :
    memB (a :: t) a.2 = false := by
  cases hm : memB (a :: t) a.2
  · rfl
  · exfalso
    rcases memB_mem.mp hm with ⟨p, hp, hc⟩
    have hc2 := icontains_true hc
    rcases List.mem_cons.mp hp with he | ht
    · rw [he] at hc2
      omega
    · have hpw := (List.pairwise_cons.mp (canonical_pairwise h)).1 p ht
      omega

theorem memB_tail_low {a : Entry} {t : ISet} (h : Canonical (a :: t))
    {v : Nat} (hv : v ≤ a.2) : memB t v = false := by
  cases hm : memB t v
  · rfl
  · exfalso
    rcases memB_mem.mp hm with ⟨p, hp, hc⟩
    have hc2 := icontains_true hc
    have hpw := (List.pairwise_cons.mp (canonical_pairwise h)).1 p hp
    omega

theorem memB_cons_high {a : Entry} {t : ISet} {v : Nat} (hv : a.2 ≤ v) :
    memB (a :: t) v = memB t v := by
  have hca : icontains a v = false := by
    cases hx : icontains a v
    · rfl
    · have := icontains_true hx
      omega
  simp only [memB, List.any_cons, hca, Bool.false_or]

theorem canonical_ext {l1 : ISet} {l2 : ISet} (h1 : Canonical l1)
    (h2 : Canonical l2) (h : ∀ v, memB l1 v = memB l2 v) : l1 = l2 := by
  induction l1 generalizing l2 with
  | nil =>
    cases l2 with
    | nil => rfl
    | cons b t2 =>
      exfalso
      have hv := ((canonical_iff _).mp h2).1 b (List.mem_cons_self _ _)
      have hb : memB (b :: t2) b.1 = true :=
        memB_mem.mpr ⟨b, List.mem_cons_self _ _, icontains_of (le_refl _) hv⟩
      rw [← h b.1] at hb
      simp [memB] at hb
  | cons a t1 ih =>
    cases l2 with
    | nil =>
      exfalso
      have hv := ((canonical_iff _).mp h1).1 a (List.mem_cons_self _ _)
      have ha : memB (a :: t1) a.1 = true :=
        memB_mem.mpr ⟨a, List.mem_cons_self _ _, icontains_of (le_refl _) hv⟩
      rw [h a.1] at ha
      simp [memB] at ha
    | cons b t2 =>
      have hva := ((canonical_iff _).mp h1).1 a (List.mem_cons_self _ _)
      have hvb := ((canonical_iff _).mp h2).1 b (List.mem_cons_self _ _)
      -- the least members agree, so the head keys agree
      have hkey : a.1 = b.1 := by
        have ha : memB (a :: t1) a.1 = true :=
          memB_mem.mpr ⟨a, List.mem_cons_self _ _, icontains_of (le_refl _) hva⟩
        have hb : memB (b :: t2) b.1 = true :=
          memB_mem.mpr ⟨b, List.mem_cons_self _ _, icontains_of (le_refl _) hvb⟩
        rw [h a.1] at ha
        rw [← h b.1] at hb
        rcases memB_mem.mp ha with ⟨p, hp, hc⟩
        rcases memB_mem.mp hb with ⟨q, hq, hcq⟩
        have h3 := head_key_min h2 p hp
        have h4 := head_key_min h1 q hq
        have h5 := (icontains_true hc).1
        have h6 := (icontains_true hcq).1
        omega
      -- the heads have the same max: the least excluded value above the key
      have hmax : a.2 = b.2 := by
        by_contra hne
        rcases Nat.lt_or_ge a.2 b.2 with hlt | hge
        · have hfa : memB (a :: t1) a.2 = false := memB_head_max h1
          have hta : memB (b :: t2) a.2 = true :=
            memB_mem.mpr ⟨b, List.mem_cons_self _ _, icontains_of (by omega)
              hlt⟩
          rw [h a.2] at hfa
          rw [hta] at hfa
          simp at hfa
        · have hlt2 : b.2 < a.2 := by omega
          have hfb : memB (b :: t2) b.2 = false := memB_head_max h2
          have htb : memB (a :: t1) b.2 = true :=
            memB_mem.mpr ⟨a, List.mem_cons_self _ _, icontains_of (by omega)
              hlt2⟩
          rw [← h b.2] at hfb
          rw [htb] at hfb
          simp at hfb
      have hab : a = b := Prod.ext_iff.mpr ⟨hkey, hmax⟩
      subst hab
      have htails : ∀ v, memB t1 v = memB t2 v := by
        intro v
        rcases Nat.lt_or_ge v a.2 with hv | hv
        · rw [memB_tail_low h1 (Nat.le_of_lt hv),
            memB_tail_low h2 (Nat.le_of_lt hv)]
        · rw [← memB_cons_high (t := t1) hv, ← memB_cons_high (t := t2) hv]
          exact h v
      rw [ih (canonical_tail h1) (canonical_tail h2) htails]

/-- C2: for every interval set in canonical form and every valid
interval `[min, max)`, after `Add([min, max))` the set is again in
canonical form (entries valid, non-empty, sorted by min, strictly
non-overlapping and non-abutting: each entry's max is strictly below
the next entry's min), and every value `v` with `min ≤ v < max`
satisfies `Contains(v) = true`. -/
theorem claim_C2_add_canonical_contains {l : ISet} (hl : Canonical l)
    {lo hi : Nat} (hvalid : lo ≤ hi) :
    ((∀ p ∈ Add l lo hi, p.1 < p.2) ∧
      (Add l lo hi).Chain' (fun p q => p.2 < q.1)) ∧
    (∀ v, lo ≤ v → v < hi → Contains (Add l lo hi) v = true) := by
  have hc := add_canonical hl lo hi
  refine ⟨(canonical_iff _).mp hc, ?_⟩
  intro v hv1 hv2
  rw [contains_eq_memB hc, add_memB hl hvalid]
  simp [hv1, hv2]

theorem claim_C2_witness :
    Canonical [(1, 3), (5, 7)] ∧ (3 : Nat) ≤ 6 ∧
    (((∀ p ∈ Add [(1, 3), (5, 7)] 3 6, p.1 < p.2) ∧
      (Add [(1, 3), (5, 7)] 3 6).Chain' (fun p q => p.2 < q.1)) ∧
    (∀ v, 3 ≤ v → v < 6 → Contains (Add [(1, 3), (5, 7)] 3 6) v = true)) :=
  ⟨by decide, by decide,
    claim_C2_add_canonical_contains (by decide) (by decide)⟩

/-- C8: on canonical sets, `Add` is order-insensitive and idempotent at
the level of set equality (`operator==` compares the underlying maps,
embedded here as list equality), and `Add` of an empty interval leaves
the set unchanged. -/
theorem claim_C8_add_commutative_idempotent {s : ISet} (hs : Canonical s)
    {a1 a2 b1 b2 x1 x2 : Nat} (ha : a1 ≤ a2) (hb : b1 ≤ b2)
    (hx : x1 ≤ x2) (y : Nat) :
    Add (Add s a1 a2) b1 b2 = Add (Add s b1 b2) a1 a2 ∧
    Add (Add s x1 x2) x1 x2 = Add s x1 x2 ∧
    Add s y y = s := by
  refine ⟨?_, ?_, ?_⟩
  · apply canonical_ext (add_canonical (add_canonical hs _ _) _ _)
      (add_canonical (add_canonical hs _ _) _ _)
    intro v
    rw [add_memB (add_canonical hs _ _) hb, add_memB hs ha,
      add_memB (add_canonical hs _ _) ha, add_memB hs hb]
    simp only [Bool.or_assoc]
    rw [Bool.or_comm (decide (a1 ≤ v) && decide (v < a2))]
  · apply canonical_ext (add_canonical (add_canonical hs _ _) _ _)
      (add_canonical hs _ _)
    intro v
    rw [add_memB (add_canonical hs _ _) hx, add_memB hs hx]
    simp only [Bool.or_assoc, Bool.or_self]
  · unfold Add
    rw [if_pos (le_refl y)]

theorem claim_C8_witness :
    Canonical [(2, 4)] ∧ (1 : Nat) ≤ 3 ∧ (5 : Nat) ≤ 9 ∧ (0 : Nat) ≤ 2 ∧
    (Add (Add [(2, 4)] 1 3) 5 9 = Add (Add [(2, 4)] 5 9) 1 3 ∧
     Add (Add [(2, 4)] 0 2) 0 2 = Add [(2, 4)] 0 2 ∧
     Add [(2, 4)] 7 7 = [(2, 4)]) :=
  ⟨by decide, by decide, by decide, by decide,
    claim_C8_add_commutative_idempotent (by decide) (by decide) (by decide)
      (by decide) 7⟩

example : Add (Add (Add [] 1 3) 5 7) 3 5 = [(1, 7)] := by decide
example : Add (Add (Add [] 1 3) 5 7) 4 5 = [(1, 3), (4, 7)] := by decide
example : Add (Add [] 1 3) 10 11 = [(1, 3), (10, 11)] := by decide
example : Add (Add [] 5 7) 1 3 = [(1, 3), (5, 7)] := by decide
example : Add (Add [] 5 7) 1 6 = [(1, 7)] := by decide
example : Add (Add [] 5 7) 5 6 = [(5, 7)] := by decide
example : Add (Add [] 5 7) 6 9 = [(5, 9)] := by decide
example : Contains (Add [] 5 7) 6 = true := by decide
example : Contains (Add [] 5 7) 7 = false := by decide
example : Canonical (Add (Add [] 1 3) 4 5) := by decide

theorem complementGo_spec (hi : Nat) :
    ∀ (l : ISet) (lo : Nat), Canonical l →
      Canonical (complementGo lo hi l) ∧
      ∀ q ∈ complementGo lo hi l, lo ≤ q.1 ∧ q.1 < q.2 ∧ q.2 ≤ hi := by
  intro l
  induction l with
  | nil =>
    intro lo _
    by_cases h : lo < hi
    · refine ⟨?_, ?_⟩
      · simp only [complementGo, if_pos h]
        rw [canonical_iff]
        refine ⟨?_, by simp⟩
        intro p hp
        simp only [List.mem_singleton] at hp
        rw [hp]
        exact h
      · intro q hq
        simp only [complementGo, if_pos h, List.mem_singleton] at hq
        rw [hq]
        exact ⟨le_refl _, h, le_refl _⟩
    · simp only [complementGo, if_neg h]
      exact ⟨rfl, by simp⟩
  | cons p t ih =>
    intro lo hc
    have hval : p.1 < p.2 := ((canonical_iff _).mp hc).1 p (by simp)
    obtain ⟨ih1, ih2⟩ := ih (max lo p.2) (canonical_tail hc)
    by_cases h : lo < min p.1 hi
    · rw [show complementGo lo hi (p :: t) =
        (lo, min p.1 hi) :: complementGo (max lo p.2) hi t by
          rw [complementGo, if_pos h]
          rfl]
      constructor
      · rw [canonical_iff]
        constructor
        · intro q hq
          rcases List.mem_cons.mp hq with he | hm
          · rw [he]
            exact h
          · exact (ih2 q hm).2.1
        · rw [List.chain'_cons']
          refine ⟨?_, ((canonical_iff _).mp ih1).2⟩
          intro y hy
          have hym : y ∈ complementGo (max lo p.2) hi t :=
            List.mem_of_mem_head? hy
          have := (ih2 y hym).1
          simp only
          omega
      · intro q hq
        rcases List.mem_cons.mp hq with he | hm
        · rw [he]
          refine ⟨le_refl _, h, ?_⟩
          simp only
          omega
        · have := ih2 q hm
          refine ⟨?_, this.2.1, this.2.2⟩
          omega
    · rw [show complementGo lo hi (p :: t) =
        complementGo (max lo p.2) hi t by
          rw [complementGo, if_neg h]
          rfl]
      refine ⟨ih1, ?_⟩
      intro q hq
      have := ih2 q hq
      refine ⟨?_, this.2.1, this.2.2⟩
      omega

theorem complementGo_memB (hi : Nat) :
    ∀ (l : ISet) (lo : Nat), Canonical l → ∀ v,
      memB (complementGo lo hi l) v =
        (decide (lo ≤ v) && decide (v < hi) && !memB l v) := by
  intro l
  induction l with
  | nil =>
    intro lo _ v
    rw [show memB ([] : ISet) v = false from rfl, Bool.not_false,
      Bool.and_true]
    by_cases h : lo < hi
    · simp only [complementGo, if_pos h]
      rw [show memB [(lo, hi)] v = (icontains (lo, hi) v || false) from rfl,
        Bool.or_false]
      rfl
    · simp only [complementGo, if_neg h]
      rw [show memB ([] : ISet) v = false from rfl, Bool.eq_iff_iff]
      simp only [Bool.and_eq_true, decide_eq_true_eq]
      constructor
      · intro hfalse
        exact absurd hfalse (by simp)
      · rintro ⟨h1, h2⟩
        omega
  | cons p t ih =>
    intro lo hc v
    have hval : p.1 < p.2 := ((canonical_iff _).mp hc).1 p (by simp)
    have htl : v < p.2 → memB t v = false := fun hv =>
      memB_tail_low hc (by omega)
    have happ : memB (complementGo lo hi (p :: t)) v =
        (memB (if lo < min p.1 hi then [(lo, min p.1 hi)] else []) v ||
          memB (complementGo (max lo p.2) hi t) v) := by
      rw [show complementGo lo hi (p :: t) =
        (if lo < min p.1 hi then [(lo, min p.1 hi)] else []) ++
          complementGo (max lo p.2) hi t from by rw [complementGo]]
      exact List.any_append
    rw [happ, ih (max lo p.2) (canonical_tail hc) v,
      show memB (p :: t) v = (icontains p v || memB t v) from rfl]
    by_cases hseg : lo < min p.1 hi
    · rw [if_pos hseg,
        show memB [(lo, min p.1 hi)] v =
          (icontains (lo, min p.1 hi) v || false) from rfl, Bool.or_false,
        show icontains (lo, min p.1 hi) v =
          (decide (lo ≤ v) && decide (v < min p.1 hi)) from rfl]
      cases hic : icontains p v
      · have hic2 := icontains_false hic
        cases hm : memB t v
        · rw [Bool.eq_iff_iff]
          simp only [Bool.not_false, Bool.and_true, Bool.or_false,
            Bool.or_eq_true, Bool.and_eq_true, decide_eq_true_eq]
          omega
        · have hp2v : p.2 ≤ v := by
            by_contra hcon
            rw [htl (by omega)] at hm
            exact Bool.false_ne_true hm
          have d1 : decide (v < min p.1 hi) = false :=
            decide_eq_false (by omega)
          rw [d1]
          simp
      · have hic2 := icontains_true hic
        have hmf : memB t v = false := htl (by omega)
        have d1 : decide (v < min p.1 hi) = false :=
          decide_eq_false (by omega)
        have d2 : decide (max lo p.2 ≤ v) = false :=
          decide_eq_false (by omega)
        rw [hmf, d1, d2]
        simp
    · rw [if_neg hseg, show memB ([] : ISet) v = false from rfl,
        Bool.false_or]
      cases hic : icontains p v
      · have hic2 := icontains_false hic
        cases hm : memB t v
        · rw [Bool.eq_iff_iff]
          simp only [Bool.not_false, Bool.and_true, Bool.or_false,
            Bool.and_eq_true, decide_eq_true_eq]
          omega
        · have hp2v : p.2 ≤ v := by
            by_contra hcon
            rw [htl (by omega)] at hm
            exact Bool.false_ne_true hm
          simp
      · have hic2 := icontains_true hic
        have hmf : memB t v = false := htl (by omega)
        have d2 : decide (max lo p.2 ≤ v) = false :=
          decide_eq_false (by omega)
        rw [hmf, d2]
        simp

theorem complement_canonical {l : ISet} (hl : Canonical l)
    (bound : Entry) : Canonical (Complement bound l) :=
  (complementGo_spec bound.2 l bound.1 hl).1

theorem complement_memB {l : ISet} (hl : Canonical l) (bound : Entry)
    (v : Nat) :
    memB (Complement bound l) v =
      (decide (bound.1 ≤ v) && decide (v < bound.2) && !memB l v) :=
  complementGo_memB bound.2 l bound.1 hl v

end IntervalSetM

namespace AlignM

theorem setSp_length (buf : TokBuf) (i : Nat) (v : Int) :
    (setSp buf i v).length = buf.length := by
  induction buf generalizing i with
  | nil => rfl
  | cons t ts ih =>
    cases i with
    | zero => rfl
    | succ n => simp [setSp, ih]

theorem tokAt_setSp_ne (buf : TokBuf) {i j : Nat} (h : j ≠ i) (v : Int) :
    tokAt (setSp buf i v) j = tokAt buf j := by
  induction buf generalizing i j with
  | nil => rfl
  | cons t ts ih =>
    cases i with
    | zero =>
      cases j with
      | zero => exact absurd rfl h
      | succ m => simp [setSp, tokAt]
    | succ n =>
      cases j with
      | zero => simp [setSp, tokAt]
      | succ m =>
        simp only [setSp, tokAt, List.getD_cons_succ]
        exact ih (by omega) 

theorem tokAt_setSp_eq (buf : TokBuf) {i : Nat} (h : i < buf.length)
    (v : Int) :
    tokAt (setSp buf i v) i = ⟨(tokAt buf i).len, v⟩ := by
  induction buf generalizing i with
  | nil => simp at h
  | cons t ts ih =>
    cases i with
    | zero => simp [setSp, tokAt]
    | succ n =>
      simp only [setSp, tokAt, List.getD_cons_succ]
      exact ih (by simpa using h)

theorem tokSum_empty (buf : TokBuf) {b e : Nat} (h : e ≤ b) :
    tokSum buf b e = 0 := by
  unfold tokSum
  rw [show e - b = 0 by omega]
  rfl

theorem tokSum_step (buf : TokBuf) {b e : Nat} (h : b < e) :
    tokSum buf b e =
      LeadingSpacesLength (tokAt buf b) + (tokAt buf b).len +
        tokSum buf (b + 1) e := by
  unfold tokSum
  rw [show e - b = (e - (b + 1)) + 1 by omega]
  rfl

theorem tokSum_split_aux (buf : TokBuf) (e : Nat) :
    ∀ d b m, b + d = m → m ≤ e →
      tokSum buf b e = tokSum buf b m + tokSum buf m e := by
  intro d
  induction d with
  | zero =>
    intro b m hbm hme
    have hb : b = m := by omega
    subst hb
    rw [tokSum_empty buf (le_refl b)]
    omega
  | succ d ih =>
    intro b m hbm hme
    have hblt : b < m := by omega
    rw [tokSum_step buf (show b < e by omega), tokSum_step buf hblt,
      ih (b + 1) m (by omega) hme]
    omega

theorem tokSum_split (buf : TokBuf) {b m e : Nat} (h1 : b ≤ m)
    (h2 : m ≤ e) :
    tokSum buf b e = tokSum buf b m + tokSum buf m e :=
  tokSum_split_aux buf e (m - b) b m (by omega) h2

theorem tokSum_congr_aux (buf1 buf2 : TokBuf) :
    ∀ d b e, e - b ≤ d →
      (∀ i, b ≤ i → i < e → tokAt buf1 i = tokAt buf2 i) →
      tokSum buf1 b e = tokSum buf2 b e := by
  intro d
  induction d with
  | zero =>
    intro b e hd _
    rw [tokSum_empty buf1 (by omega), tokSum_empty buf2 (by omega)]
  | succ d ih =>
    intro b e hd hag
    rcases Nat.lt_or_ge b e with hlt | hge
    · rw [tokSum_step buf1 hlt, tokSum_step buf2 hlt,
        hag b (le_refl b) hlt,
        ih (b + 1) e (by omega) (fun i h1 h2 => hag i (by omega) h2)]
    · rw [tokSum_empty buf1 hge, tokSum_empty buf2 hge]

theorem tokSum_congr {buf1 buf2 : TokBuf} {b e : Nat}
    (hag : ∀ i, b ≤ i → i < e → tokAt buf1 i = tokAt buf2 i) :
    tokSum buf1 b e = tokSum buf2 b e :=
  tokSum_congr_aux buf1 buf2 (e - b) b e (le_refl _) hag

theorem effectiveCellWidth_congr {buf1 buf2 : TokBuf} {b e : Nat}
    (hag : ∀ i, b ≤ i → i < e → tokAt buf1 i = tokAt buf2 i) :
    EffectiveCellWidth buf1 b e = EffectiveCellWidth buf2 b e := by
  unfold EffectiveCellWidth
  by_cases h : e ≤ b
  · rw [if_pos h, if_pos h]
  · rw [if_neg h, if_neg h, tokSum_congr hag, hag b (le_refl b) (by omega)]

theorem trimTokenRangeEnd_spec (lastLeaf b : Nat) : ∀ e,
    (b ≤ lastLeaf → lastLeaf < e →
      trimTokenRangeEnd lastLeaf b e = some (lastLeaf + 1)) ∧
    ((∀ i, b ≤ i → i < e → i ≠ lastLeaf) →
      trimTokenRangeEnd lastLeaf b e = none) := by
  intro e
  induction e with
  | zero =>
    constructor
    · intro _ h2
      omega
    · intro _
      rfl
  | succ e2 ih =>
    constructor
    · intro h1 h2
      rw [trimTokenRangeEnd, if_neg (by omega)]
      by_cases he : e2 = lastLeaf
      · rw [if_pos he, he]
      · rw [if_neg he]
        exact ih.1 h1 (by omega)
    · intro h
      rw [trimTokenRangeEnd]
      by_cases hb : e2 + 1 ≤ b
      · rw [if_pos hb]
      · rw [if_neg hb]
        have hne : e2 ≠ lastLeaf := h e2 (by omega) (by omega)
        rw [if_neg hne]
        refine ih.2 ?_
        intro i hi1 hi2
        exact h i hi1 (by omega)

/-- C9: row extraction derives the mutable range by scanning backward
from the partition's token-range end while the last token is not the
rightmost leaf of the row's origin subtree, and asserts
`range_begin ≤ range_end`; when no token of the row matches that leaf,
the operation fails with the programmer-error assertion (modelled by
`none`) instead of returning a range. -/
theorem claim_C9_row_extraction (r : RowPartition) :
    (r.b ≤ r.lastLeaf → r.lastLeaf < r.e →
      GetMutableFormatTokenRange r = some (r.b, r.lastLeaf + 1) ∧
      r.b ≤ r.lastLeaf + 1) ∧
    ((∀ i, r.b ≤ i → i < r.e → i ≠ r.lastLeaf) →
      GetMutableFormatTokenRange r = none) := by
  constructor
  · intro h1 h2
    unfold GetMutableFormatTokenRange
    rw [(trimTokenRangeEnd_spec r.lastLeaf r.b r.e).1 h1 h2]
    exact ⟨rfl, by omega⟩
  · intro h
    unfold GetMutableFormatTokenRange
    rw [(trimTokenRangeEnd_spec r.lastLeaf r.b r.e).2 h]
    rfl

theorem claim_C9_witness :
    (GetMutableFormatTokenRange ⟨0, 4, 0, 5, 2⟩ = some (0, 3) ∧
      (0 : Nat) ≤ 3) ∧
    GetMutableFormatTokenRange ⟨0, 4, 0, 5, 9⟩ = none :=
  ⟨(claim_C9_row_extraction ⟨0, 4, 0, 5, 2⟩).1 (by decide) (by decide),
   (claim_C9_row_extraction ⟨0, 4, 0, 5, 9⟩).2
     (fun i h1 h2 => Nat.ne_of_lt (lt_of_lt_of_le h2 (by decide)))⟩

theorem alignRowSpacings_all_empty (buf : TokBuf) :
    ∀ (cells : List AlignmentCell)
      (cfgs : List AlignedColumnConfiguration)
      (props : List AlignmentColumnProperties) (acc : Int),
      (∀ c ∈ cells, c.e ≤ c.b) →
      AlignRowSpacings cfgs props cells acc buf = buf := by
  intro cells
  induction cells with
  | nil =>
    intro cfgs props acc _
    cases cfgs with
    | nil => rfl
    | cons cfg cfgs =>
      cases props with
      | nil => rfl
      | cons pr prs => rfl
  | cons c cs ih =>
    intro cfgs props acc hall
    cases cfgs with
    | nil => rfl
    | cons cfg cfgs =>
      cases props with
      | nil => rfl
      | cons pr prs =>
        have hc : c.e ≤ c.b := hall c (List.mem_cons_self _ _)
        simp only [AlignRowSpacings, if_pos hc]
        exact ih cfgs prs _ (fun x hx => hall x (List.mem_cons_of_mem _ hx))

theorem setEndsRev_replicate (n : Nat) (te : Nat) :
    setEndsRev (List.replicate n te) te =
      List.replicate n ⟨te, te, 0, 0⟩ := by
  induction n with
  | zero => rfl
  | succ m ih => simp only [List.replicate_succ, setEndsRev, ih]

/-- C10: in an aligned group, a qualifying row whose cell scanner
produced zero anchors has all its matrix cells filled as empty ranges
anchored at the row's token-range end, and the spacing walk writes
`spaces_required` only on first tokens of non-empty cells, so the row's
tokens never change. -/
theorem claim_C10_anchorless_row_untouched
    (positions : List SyntaxTreePath) (rd : AlignmentRowData)
    (h : rd.sparse_columns = []) (buf : TokBuf) :
    FillAlignmentRow positions rd =
      some (List.replicate positions.length ⟨rd.e, rd.e, 0, 0⟩) ∧
    ∀ cfgs props acc,
      AlignRowSpacings cfgs props
        ((List.replicate positions.length
          (⟨rd.e, rd.e, 0, 0⟩ : AlignmentCell)).map (UpdateWidths buf))
        acc buf = buf := by
  constructor
  · unfold FillAlignmentRow
    rw [h]
    simp only [fillBegins, Nat.sub_zero, Option.map_some']
    congr 1
    rw [List.reverse_replicate, setEndsRev_replicate,
      List.reverse_replicate]
  · intro cfgs props acc
    refine alignRowSpacings_all_empty buf _ cfgs props acc ?_
    intro c hc
    rcases List.mem_map.mp hc with ⟨c0, hc0, hup⟩
    have hc0e := List.eq_of_mem_replicate hc0
    rw [← hup, hc0e]
    unfold UpdateWidths
    exact le_refl _

theorem claim_C10_witness :
    FillAlignmentRow [[0], [1]] ⟨0, 5, []⟩ =
      some (List.replicate ([[0], [1]] : List SyntaxTreePath).length
        ⟨5, 5, 0, 0⟩) ∧
    ∀ cfgs props acc,
      AlignRowSpacings cfgs props
        ((List.replicate ([[0], [1]] : List SyntaxTreePath).length
          (⟨5, 5, 0, 0⟩ : AlignmentCell)).map (UpdateWidths cexBuf))
        acc cexBuf = cexBuf :=
  claim_C10_anchorless_row_untouched [[0], [1]] ⟨0, 5, []⟩ rfl cexBuf

theorem foldl_setSp_frame (ws : List (Nat × Int)) :
    ∀ (buf : TokBuf) (i : Nat), (∀ w ∈ ws, w.1 ≠ i) →
      tokAt (ws.foldl (fun b w => setSp b w.1 w.2) buf) i = tokAt buf i := by
  induction ws with
  | nil => intro buf i _; rfl
  | cons w rest ih =>
    intro buf i hw
    simp only [List.foldl_cons]
    rw [ih _ i (fun x hx => hw x (List.mem_cons_of_mem _ hx))]
    exact tokAt_setSp_ne buf (fun he => hw w (List.mem_cons_self _ _) he.symm) w.2

/-- C4: the spacing adjustment of an aligned row performs, in order,
exactly the writes of the accrued-spaces recurrence: columns are walked
left to right with `accrued_spaces` starting at 0, incremented by each
column's left border; an empty cell forwards the column width; a
non-empty cell with `padding = width - compact_width` receives
`accrued_spaces` on its first token and resets the counter to `padding`
when flush-left, or receives `accrued_spaces + padding` and resets it
to 0 when flush-right — and no other token is modified. -/
theorem claim_C4_spacing_walk
    (cfgs : List AlignedColumnConfiguration)
    (props : List AlignmentColumnProperties)
    (cells : List AlignmentCell) (acc : Int) (buf : TokBuf) :
    AlignRowSpacings cfgs props cells acc buf =
      (alignWrites cfgs props cells acc).foldl
        (fun b w => setSp b w.1 w.2) buf ∧
    ∀ i, (∀ w ∈ alignWrites cfgs props cells acc, w.1 ≠ i) →
      tokAt (AlignRowSpacings cfgs props cells acc buf) i = tokAt buf i := by
  have hmain : ∀ (cells : List AlignmentCell)
      (cfgs : List AlignedColumnConfiguration)
      (props : List AlignmentColumnProperties) (acc : Int) (buf : TokBuf),
      AlignRowSpacings cfgs props cells acc buf =
        (alignWrites cfgs props cells acc).foldl
          (fun b w => setSp b w.1 w.2) buf := by
    intro cells
    induction cells with
    | nil =>
      intro cfgs props acc buf
      cases cfgs with
      | nil => rfl
      | cons cfg cfgs =>
        cases props with
        | nil => rfl
        | cons pr prs => rfl
    | cons c cs ih =>
      intro cfgs props acc buf
      cases cfgs with
      | nil => rfl
      | cons cfg cfgs =>
        cases props with
        | nil => rfl
        | cons pr prs =>
          by_cases hc : c.e ≤ c.b
          · simp only [AlignRowSpacings, alignWrites, if_pos hc]
            exact ih _ _ _ _
          · by_cases hf : pr.flush_left = true
            · simp only [AlignRowSpacings, alignWrites, if_neg hc,
                if_pos hf, List.foldl_cons]
              exact ih _ _ _ _
            · simp only [AlignRowSpacings, alignWrites, if_neg hc,
                if_neg hf, List.foldl_cons]
              exact ih _ _ _ _
  refine ⟨hmain cells cfgs props acc buf, ?_⟩
  intro i hi
  rw [hmain cells cfgs props acc buf]
  exact foldl_setSp_frame _ buf i hi

theorem claim_C4_witness :
    AlignRowSpacings [⟨2, 0⟩] [⟨true⟩] [⟨0, 1, 1, 0⟩] 0 cexBuf =
      (alignWrites [⟨2, 0⟩] [⟨true⟩] [⟨0, 1, 1, 0⟩] 0).foldl
        (fun b w => setSp b w.1 w.2) cexBuf ∧
    ∀ i, (∀ w ∈ alignWrites [⟨2, 0⟩] [⟨true⟩] [⟨0, 1, 1, 0⟩] 0,
        w.1 ≠ i) →
      tokAt (AlignRowSpacings [⟨2, 0⟩] [⟨true⟩] [⟨0, 1, 1, 0⟩] 0 cexBuf)
        i = tokAt cexBuf i :=
  claim_C4_spacing_walk [⟨2, 0⟩] [⟨true⟩] [⟨0, 1, 1, 0⟩] 0 cexBuf

theorem afr_eq_none_cd {buf : TokBuf} {rows : List RowPartition}
    {scanner : RowPartition → List ColumnPositionEntry} {limit : Int}
    (h1 : ¬rows.length ≤ 1) (hv : VerifyRowsOriginalNodeTypes rows = true)
    (hcd : collectRowData scanner rows = none) :
    AlignFilteredRows buf rows scanner limit = none := by
  unfold AlignFilteredRows
  rw [if_neg h1]
  simp only [hv, Bool.not_true, Bool.false_eq_true, if_false]
  split
  · rfl
  · rename_i rowData2 heq
    rw [hcd] at heq
    exact Option.noConfusion heq

theorem afr_eq_none_m {buf : TokBuf} {rows : List RowPartition}
    {scanner : RowPartition → List ColumnPositionEntry} {limit : Int}
    {rowData : List AlignmentRowData}
    (h1 : ¬rows.length ≤ 1) (hv : VerifyRowsOriginalNodeTypes rows = true)
    (hcd : collectRowData scanner rows = some rowData)
    (hm : afrMatrix buf rowData = none) :
    AlignFilteredRows buf rows scanner limit = none := by
  unfold AlignFilteredRows
  rw [if_neg h1]
  simp only [hv, Bool.not_true, Bool.false_eq_true, if_false]
  split
  · rfl
  · rename_i rowData2 heq
    rw [hcd] at heq
    injection heq with hrd
    subst hrd
    split
    · rfl
    · rename_i matrix2 heq2
      rw [hm] at heq2
      exact Option.noConfusion heq2

theorem afr_eq_checks {buf : TokBuf} {rows : List RowPartition}
    {scanner : RowPartition → List ColumnPositionEntry} {limit : Int}
    {rowData : List AlignmentRowData} {matrix : List (List AlignmentCell)}
    (h1 : ¬rows.length ≤ 1) (hv : VerifyRowsOriginalNodeTypes rows = true)
    (hcd : collectRowData scanner rows = some rowData)
    (hm : afrMatrix buf rowData = some matrix) :
    AlignFilteredRows buf rows scanner limit =
      (if limit < afrTotal rows matrix then some buf
       else if epilogOverflow buf rows matrix (afrTotal rows matrix) limit
         then some buf
       else some (respaceAll (ComputeColumnWidths matrix)
         (afrProps rowData) matrix buf)) := by
  unfold AlignFilteredRows
  rw [if_neg h1]
  simp only [hv, Bool.not_true, Bool.false_eq_true, if_false]
  split
  · rename_i heq
    rw [hcd] at heq
    exact Option.noConfusion heq
  · rename_i rowData2 heq
    rw [hcd] at heq
    injection heq with hrd
    subst hrd
    split
    · rename_i heq2
      rw [hm] at heq2
      exact Option.noConfusion heq2
    · rename_i matrix2 heq2
      rw [hm] at heq2
      injection heq2 with hmm
      subst hmm
      rfl

/-- C1: the engine never partially aligns a group.  Any run of
`AlignFilteredRows` either fails an internal assertion (`none`), or
returns the buffer unchanged — every token's `spaces_required` keeps
its pre-call value, which happens in particular whenever a group has
fewer than two qualifying rows, rows of differing syntax-node kinds, a
column-budget overflow or an epilog overflow — or respaces every row,
and the respacing happens only after all those checks have passed. -/
theorem claim_C1_no_partial_alignment (buf : TokBuf)
    (rows : List RowPartition)
    (scanner : RowPartition → List ColumnPositionEntry) (limit : Int) :
    AlignFilteredRows buf rows scanner limit = none ∨
    AlignFilteredRows buf rows scanner limit = some buf ∨
    (∃ rowData matrix,
      collectRowData scanner rows = some rowData ∧
      afrMatrix buf rowData = some matrix ∧
      2 ≤ rows.length ∧
      VerifyRowsOriginalNodeTypes rows = true ∧
      afrTotal rows matrix ≤ limit ∧
      epilogOverflow buf rows matrix (afrTotal rows matrix) limit = false ∧
      AlignFilteredRows buf rows scanner limit =
        some (respaceAll (ComputeColumnWidths matrix) (afrProps rowData)
          matrix buf)) := by
  by_cases h1 : rows.length ≤ 1
  · refine Or.inr (Or.inl ?_)
    unfold AlignFilteredRows
    rw [if_pos h1]
  · cases hv : VerifyRowsOriginalNodeTypes rows
    · refine Or.inr (Or.inl ?_)
      unfold AlignFilteredRows
      rw [if_neg h1]
      simp [hv]
    · cases hcd : collectRowData scanner rows with
      | none => exact Or.inl (afr_eq_none_cd h1 hv hcd)
      | some rowData =>
        cases hm : afrMatrix buf rowData with
        | none => exact Or.inl (afr_eq_none_m h1 hv hcd hm)
        | some matrix =>
          have hbase := @afr_eq_checks buf rows scanner limit rowData
            matrix h1 hv hcd hm
          by_cases ht : limit < afrTotal rows matrix
          · refine Or.inr (Or.inl ?_)
            rw [hbase, if_pos ht]
          · cases he : epilogOverflow buf rows matrix
                (afrTotal rows matrix) limit
            · refine Or.inr (Or.inr ⟨rowData, matrix, rfl, hm, by omega,
                rfl, by omega, he, ?_⟩)
              rw [hbase, if_neg ht, he]
              simp only [Bool.false_eq_true, if_false]

            · refine Or.inr (Or.inl ?_)
              rw [hbase, if_neg ht, he]
              simp

/-- C3: for a group that passed the row-count and same-kind checks
(and whose row extraction and matrix fill succeeded), the engine
abstains — returns the unchanged buffer — when `total_column_width`
(the first row's indentation plus the per-column sum of
`left_border + width`) exceeds `column_limit`, or when for some row
that total plus the effective cell width of the row's epilog (the
token range from the last cell's end to the partition's tokens end)
exceeds `column_limit`; otherwise it respaces every row. -/
theorem claim_C3_budget_decision {buf : TokBuf} {rows : List RowPartition}
    {scanner : RowPartition → List ColumnPositionEntry} {limit : Int}
    {rowData : List AlignmentRowData}
    {matrix : List (List AlignmentCell)}
    (hlen : 2 ≤ rows.length)
    (hkind : VerifyRowsOriginalNodeTypes rows = true)
    (hcd : collectRowData scanner rows = some rowData)
    (hm : afrMatrix buf rowData = some matrix) :
    (limit < afrTotal rows matrix →
      AlignFilteredRows buf rows scanner limit = some buf) ∧
    (afrTotal rows matrix ≤ limit →
      epilogOverflow buf rows matrix (afrTotal rows matrix) limit = true →
      AlignFilteredRows buf rows scanner limit = some buf) ∧
    (afrTotal rows matrix ≤ limit →
      epilogOverflow buf rows matrix (afrTotal rows matrix) limit = false →
      AlignFilteredRows buf rows scanner limit =
        some (respaceAll (ComputeColumnWidths matrix) (afrProps rowData)
          matrix buf)) := by
  have hbase := @afr_eq_checks buf rows scanner limit rowData matrix
    (by omega) hkind hcd hm
  refine ⟨?_, ?_, ?_⟩
  · intro ht
    rw [hbase, if_pos ht]
  · intro ht he
    rw [hbase, if_neg (by omega), he]
    simp
  · intro ht he
    rw [hbase, if_neg (by omega), he]
    simp only [Bool.false_eq_true, if_false]

theorem claim_C1_witness :
    AlignFilteredRows exBuf [exR0] exScan 40 = none ∨
    AlignFilteredRows exBuf [exR0] exScan 40 = some exBuf ∨
    (∃ rowData matrix,
      collectRowData exScan [exR0] = some rowData ∧
      afrMatrix exBuf rowData = some matrix ∧
      2 ≤ ([exR0] : List RowPartition).length ∧
      VerifyRowsOriginalNodeTypes [exR0] = true ∧
      afrTotal [exR0] matrix ≤ 40 ∧
      epilogOverflow exBuf [exR0] matrix (afrTotal [exR0] matrix) 40 =
        false ∧
      AlignFilteredRows exBuf [exR0] exScan 40 =
        some (respaceAll (ComputeColumnWidths matrix) (afrProps rowData)
          matrix exBuf)) :=
  claim_C1_no_partial_alignment exBuf [exR0] exScan 40

theorem claim_C3_witness :
    ((40 : Int) < afrTotal [exR0, exR1] exMatrix →
      AlignFilteredRows exBuf [exR0, exR1] exScan 40 = some exBuf) ∧
    (afrTotal [exR0, exR1] exMatrix ≤ 40 →
      epilogOverflow exBuf [exR0, exR1] exMatrix
        (afrTotal [exR0, exR1] exMatrix) 40 = true →
      AlignFilteredRows exBuf [exR0, exR1] exScan 40 = some exBuf) ∧
    (afrTotal [exR0, exR1] exMatrix ≤ 40 →
      epilogOverflow exBuf [exR0, exR1] exMatrix
        (afrTotal [exR0, exR1] exMatrix) 40 = false →
      AlignFilteredRows exBuf [exR0, exR1] exScan 40 =
        some (respaceAll (ComputeColumnWidths exMatrix)
          (afrProps exRowData) exMatrix exBuf)) :=
  claim_C3_budget_decision (by decide) (by decide) (by decide) (by decide)

/-- C5 (counterexample): this two-row group passes every check and is
aligned (the respaced buffer is returned), yet the first row's rendered
width is 4, exceeding the column limit 3: the budget check measures the
epilog with `EffectiveCellWidth`, which drops the leading space of the
epilog's first token (the trailing comma). -/
theorem claim_C5_counterexample :
    (¬ ([cexR0, cexR1] : List RowPartition).length ≤ 1) ∧
    VerifyRowsOriginalNodeTypes [cexR0, cexR1] = true ∧
    collectRowData cexScan [cexR0, cexR1] = some cexRowData ∧
    afrMatrix cexBuf cexRowData = some cexMatrix ∧
    ¬ (3 : Int) < afrTotal [cexR0, cexR1] cexMatrix ∧
    epilogOverflow cexBuf [cexR0, cexR1] cexMatrix
      (afrTotal [cexR0, cexR1] cexMatrix) 3 = false ∧
    AlignFilteredRows cexBuf [cexR0, cexR1] cexScan 3 =
      some (respaceAll (ComputeColumnWidths cexMatrix)
        (afrProps cexRowData) cexMatrix cexBuf) ∧
    (3 : Int) < renderedWidth
      (respaceAll (ComputeColumnWidths cexMatrix)
        (afrProps cexRowData) cexMatrix cexBuf) cexR0 := by
  decide

/-- A successful token search stays inside the searched range and hits
the target. -/
theorem findTokFromFuel_spec (target : Nat) :
    ∀ d t ti, findTokFromFuel target d t = some ti →
      t ≤ ti ∧ ti < t + d := by
  intro d
  induction d with
  | zero => intro t ti h; exact Option.noConfusion h
  | succ d ih =>
    intro t ti h
    rw [findTokFromFuel] at h
    by_cases he : t = target
    · rw [if_pos he] at h
      injection h with h2
      omega
    · rw [if_neg he] at h
      have := ih (t + 1) ti h
      omega

/-- A successful token search over `[t, te)` yields an index in that
range. -/
theorem findTokFrom_spec {t te target ti : Nat}
    (h : findTokFrom t te target = some ti) : t ≤ ti ∧ ti < te := by
  have h2 := findTokFromFuel_spec target (te - t) t ti h
  omega

/-- A successful path search stays inside the searched fuel window. -/
theorem findPathFromFuel_spec (positions : List SyntaxTreePath)
    (target : SyntaxTreePath) :
    ∀ d p ci, findPathFromFuel positions target d p = some ci →
      p ≤ ci ∧ ci < p + d := by
  intro d
  induction d with
  | zero => intro p ci h; exact Option.noConfusion h
  | succ d ih =>
    intro p ci h
    rw [findPathFromFuel] at h
    by_cases he : positions.getD p [] = target
    · rw [if_pos he] at h
      injection h with h2
      omega
    · rw [if_neg he] at h
      have := ih (p + 1) ci h
      omega

/-- A successful path search from `p` yields a column index at or after
`p` and within the schema. -/
theorem findPathFrom_spec {positions : List SyntaxTreePath} {p : Nat}
    {target : SyntaxTreePath} {ci : Nat}
    (h : findPathFrom positions p target = some ci) :
    p ≤ ci ∧ ci < positions.length := by
  have h2 := findPathFromFuel_spec positions target
    (positions.length - p) p ci h
  by_cases hp : p ≤ positions.length
  · omega
  · rw [findPathFrom, show positions.length - p = 0 by omega] at h
    exact Option.noConfusion h

/-- A constant list is weakly increasing. -/
theorem chain'_le_replicate (n a : Nat) :
    (List.replicate n a).Chain' (fun x y => x ≤ y) := by
  induction n with
  | zero => exact List.chain'_nil
  | succ m ih =>
    rw [List.replicate_succ, List.chain'_cons']
    refine ⟨?_, ih⟩
    intro y hy
    have hm : y ∈ List.replicate m a := List.mem_of_mem_head? hy
    rw [List.eq_of_mem_replicate hm]

/-- The begins list produced by `fillBegins` has one entry per column
from `lastCol` on, is weakly increasing, and stays inside `[t, te]`. -/
theorem fillBegins_spec (positions : List SyntaxTreePath) (te : Nat) :
    ∀ (sparse : List ColumnPositionEntry) (p t lastCol : Nat)
      (bs : List Nat), t ≤ te → lastCol ≤ p + 1 →
      fillBegins positions te sparse p t lastCol = some bs →
      bs.length = positions.length - lastCol ∧
      bs.Chain' (fun x y => x ≤ y) ∧
      (∀ x ∈ bs, t ≤ x ∧ x ≤ te) := by
  intro sparse
  induction sparse with
  | nil =>
    intro p t lastCol bs hte _ h
    rw [fillBegins] at h
    injection h with h2
    subst h2
    refine ⟨List.length_replicate _ _, chain'_le_replicate _ _, ?_⟩
    intro x hx
    rw [List.eq_of_mem_replicate hx]
    exact ⟨hte, le_refl te⟩
  | cons a rest ih =>
    intro p t lastCol bs hte hlc h
    rw [fillBegins] at h
    cases hci : findPathFrom positions p a.path with
    | none => rw [hci] at h; exact Option.noConfusion h
    | some ci =>
      rw [hci] at h
      cases hti : findTokFrom t te a.starting_token with
      | none => rw [hti] at h; exact Option.noConfusion h
      | some ti =>
        rw [hti] at h
        simp only [Option.pure_def, Option.bind_eq_bind, Option.some_bind]
          at h
        cases htail : fillBegins positions te rest ci ti (ci + 1) with
        | none => rw [htail] at h; exact Option.noConfusion h
        | some tail =>
          rw [htail] at h
          injection h with h2
          subst h2
          obtain ⟨hp1, hp2⟩ := findPathFrom_spec hci
          obtain ⟨ht1, ht2⟩ := findTokFrom_spec hti
          obtain ⟨ihl, ihc, ihm⟩ :=
            ih ci ti (ci + 1) tail (by omega) (le_refl _) htail
          refine ⟨?_, ?_, ?_⟩
          · rw [List.length_append, List.length_replicate, ihl]
            omega
          · rw [List.chain'_append]
            refine ⟨chain'_le_replicate _ _, ihc, ?_⟩
            intro x hx y hy
            have hxm := List.mem_of_mem_getLast? hx
            have hym := List.mem_of_mem_head? hy
            rw [List.eq_of_mem_replicate hxm]
            exact (ihm y hym).1
          · intro x hx
            rcases List.mem_append.mp hx with hx1 | hx2
            · rw [List.eq_of_mem_replicate hx1]
              omega
            · have := ihm x hx2
              omega

/-- Default-or-last of a cons in terms of the tail. -/
theorem getLast_getD_cons : ∀ (xs : List Nat) (x ub : Nat),
    ((x :: xs).getLast?).getD ub = xs.getLast?.getD x := by
  intro xs
  induction xs with
  | nil => intro x ub; rfl
  | cons y ys ih =>
    intro x ub
    rw [List.getLast?_cons_cons, ih y ub, ih y x]

/-- `setEndsRev` over a snoc: the appended begin is paired with the
previous last begin (or the seed when alone). -/
theorem setEndsRev_append_singleton :
    ∀ (xs : List Nat) (b ub : Nat),
      setEndsRev (xs ++ [b]) ub =
        setEndsRev xs ub ++ [⟨b, xs.getLast?.getD ub, 0, 0⟩] := by
  intro xs
  induction xs with
  | nil => intro b ub; rfl
  | cons x xs ih =>
    intro x2 ub
    rw [List.cons_append, setEndsRev, ih, setEndsRev, getLast_getD_cons]
    rfl

/-- The reversed-ends construction of `FillAlignmentRow`, unrolled one
begin at a time: each cell ends where the next begins, the last at the
seed. -/
theorem buildCells_cons (b : Nat) (rest : List Nat) (te : Nat) :
    (setEndsRev ((b :: rest).reverse) te).reverse =
      ⟨b, rest.head?.getD te, 0, 0⟩ ::
        (setEndsRev rest.reverse te).reverse := by
  rw [List.reverse_cons, setEndsRev_append_singleton, List.reverse_append,
    List.getLast?_reverse]
  rfl

/-- A weakly increasing begins list bounded by the seed builds a cell
list that tiles `[first begin, te)`. -/
theorem buildCells_tile (te : Nat) : ∀ (bs : List Nat),
    bs.Chain' (fun x y => x ≤ y) → (∀ x ∈ bs, x ≤ te) →
    cellsTile (bs.head?.getD te) te ((setEndsRev bs.reverse te).reverse) := by
  intro bs
  induction bs with
  | nil => intro _ _; exact rfl
  | cons b rest ih =>
    intro hch hle
    rw [buildCells_cons]
    refine ⟨rfl, ?_, ?_⟩
    · cases rest with
      | nil => exact hle b (List.mem_cons_self b [])
      | cons r rs =>
        exact (List.chain'_cons.mp hch).1
    · exact ih (List.Chain'.tail hch)
        (fun x hx => hle x (List.mem_cons_of_mem b hx))

/-- A tiling cell list lies inside `[cb, te)` and is made of forward
ranges. -/
theorem cellsTile_bounds : ∀ (cells : List AlignmentCell) (cb te : Nat),
    cellsTile cb te cells →
    cb ≤ te ∧ ∀ c ∈ cells, cb ≤ c.b ∧ c.b ≤ c.e ∧ c.e ≤ te := by
  intro cells
  induction cells with
  | nil =>
    intro cb te h
    exact ⟨le_of_eq h, by intro c hc; exact absurd hc (List.not_mem_nil c)⟩
  | cons c cs ih =>
    intro cb te h
    obtain ⟨hb, hbe, ht⟩ := h
    obtain ⟨hte, hall⟩ := ih c.e te ht
    refine ⟨by omega, ?_⟩
    intro x hx
    rcases List.mem_cons.mp hx with hx1 | hx2
    · subst hx1
      omega
    · have := hall x hx2
      omega

/-- A tiling cell list's last cell ends at the tile end. -/
theorem cellsTile_getLast : ∀ (cells : List AlignmentCell) (cb te : Nat),
    cellsTile cb te cells →
    ∀ c, cells.getLast? = some c → c.e = te := by
  intro cells
  induction cells with
  | nil => intro cb te _ c hc; exact Option.noConfusion hc
  | cons c0 cs ih =>
    intro cb te h c hc
    obtain ⟨hb, hbe, ht⟩ := h
    cases cs with
    | nil =>
      rw [List.getLast?_singleton] at hc
      injection hc with h2
      subst h2
      exact ht
    | cons c1 cs2 =>
      rw [List.getLast?_cons_cons] at hc
      exact ih c0.e te ht c hc

/-- `UpdateWidths` keeps the token range, hence preserves tiling. -/
theorem cellsTile_map_update (buf : TokBuf) :
    ∀ (cells : List AlignmentCell) (cb te : Nat), cellsTile cb te cells →
    cellsTile cb te (cells.map (UpdateWidths buf)) := by
  intro cells
  induction cells with
  | nil => intro cb te h; exact h
  | cons c cs ih =>
    intro cb te h
    obtain ⟨hb, hbe, ht⟩ := h
    exact ⟨hb, hbe, ih c.e te ht⟩

/-- `total_column_width` is the indentation plus the sum of the
columns' total widths. -/
theorem totalColumnWidth_eq :
    ∀ (cfgs : List AlignedColumnConfiguration) (indent : Int),
      totalColumnWidth indent cfgs =
        indent + (cfgs.map TotalWidth).sum := by
  intro cfgs
  induction cfgs with
  | nil => intro indent; simp [totalColumnWidth]
  | cons c cs ih =>
    intro indent
    rw [totalColumnWidth, List.foldl_cons]
    have h2 := ih (indent + TotalWidth c)
    rw [totalColumnWidth] at h2
    rw [h2, List.map_cons, List.sum_cons]
    ring

/-- The spacing walk never changes the buffer length. -/
theorem alignRowSpacings_length :
    ∀ (cells : List AlignmentCell)
      (cfgs : List AlignedColumnConfiguration)
      (props : List AlignmentColumnProperties) (acc : Int) (buf : TokBuf),
      (AlignRowSpacings cfgs props cells acc buf).length = buf.length := by
  intro cells
  induction cells with
  | nil =>
    intro cfgs props acc buf
    cases cfgs with
    | nil => rfl
    | cons cfg cfgs => cases props with
      | nil => rfl
      | cons pr prs => rfl
  | cons c cs ih =>
    intro cfgs props acc buf
    cases cfgs with
    | nil => rfl
    | cons cfg cfgs =>
      cases props with
      | nil => rfl
      | cons pr prs =>
        rw [AlignRowSpacings]
        by_cases h1 : c.e ≤ c.b
        · rw [if_pos h1, ih]
        · rw [if_neg h1]
          by_cases h2 : pr.flush_left
          · rw [if_pos h2, ih, setSp_length]
          · rw [if_neg h2, ih, setSp_length]

/-- The spacing walk only writes at the begins of non-empty cells: any
other index is untouched. -/
theorem alignRowSpacings_frame :
    ∀ (cells : List AlignmentCell)
      (cfgs : List AlignedColumnConfiguration)
      (props : List AlignmentColumnProperties) (acc : Int) (buf : TokBuf)
      (i : Nat),
      (∀ c ∈ cells, ¬ c.e ≤ c.b → c.b ≠ i) →
      tokAt (AlignRowSpacings cfgs props cells acc buf) i = tokAt buf i := by
  intro cells
  induction cells with
  | nil =>
    intro cfgs props acc buf i _
    cases cfgs with
    | nil => rfl
    | cons cfg cfgs => cases props with
      | nil => rfl
      | cons pr prs => rfl
  | cons c cs ih =>
    intro cfgs props acc buf i hw
    cases cfgs with
    | nil => rfl
    | cons cfg cfgs =>
      cases props with
      | nil => rfl
      | cons pr prs =>
        have hwcs : ∀ x ∈ cs, ¬ x.e ≤ x.b → x.b ≠ i :=
          fun x hx => hw x (List.mem_cons_of_mem c hx)
        rw [AlignRowSpacings]
        by_cases h1 : c.e ≤ c.b
        · rw [if_pos h1, ih cfgs prs _ buf i hwcs]
        · rw [if_neg h1]
          have hbne : i ≠ c.b :=
            fun he => hw c (List.mem_cons_self c cs) h1 he.symm
          by_cases h2 : pr.flush_left
          · rw [if_pos h2, ih cfgs prs _ _ i hwcs,
              tokAt_setSp_ne buf hbne]
          · rw [if_neg h2, ih cfgs prs _ _ i hwcs,
              tokAt_setSp_ne buf hbne]

/-- The sum invariant of the spacing walk over one row: on a cell list
tiling `[cb, te)` whose compact widths were measured on the current
buffer and never exceed their column widths, the walk rewrites the
tiled range to the carried-in accrued spaces plus the sum of the column
total widths less a non-negative leftover, and leaves every token
outside the tiled range unchanged. -/
theorem alignRow_sum :
    ∀ (cells : List AlignmentCell)
      (cfgs : List AlignedColumnConfiguration)
      (props : List AlignmentColumnProperties) (acc : Int) (buf : TokBuf)
      (cb te : Nat),
      cellsTile cb te cells →
      cells.length = cfgs.length → cells.length = props.length →
      te ≤ buf.length →
      (∀ c ∈ cells, ¬ c.e ≤ c.b →
        c.compact_width = EffectiveCellWidth buf c.b c.e) →
      (∀ (k : Nat) (c : AlignmentCell)
        (cfg : AlignedColumnConfiguration),
        cells[k]? = some c → cfgs[k]? = some cfg →
        (¬ c.e ≤ c.b → c.compact_width ≤ cfg.width) ∧
        0 ≤ cfg.width ∧ 0 ≤ cfg.left_border) →
      0 ≤ acc →
      ∃ accF : Int, 0 ≤ accF ∧
        tokSum (AlignRowSpacings cfgs props cells acc buf) cb te =
          acc + ((cfgs.map TotalWidth).sum - accF) ∧
        ∀ i : Nat, i < cb ∨ te ≤ i →
          tokAt (AlignRowSpacings cfgs props cells acc buf) i =
            tokAt buf i := by
  intro cells
  induction cells with
  | nil =>
    intro cfgs props acc buf cb te htile hlen1 hlen2 hbl hcw hks hacc
    cases cfgs with
    | cons cfg cfgst => simp at hlen1
    | nil =>
      cases props with
      | cons pr prs => simp at hlen2
      | nil =>
        refine ⟨acc, hacc, ?_, fun i _ => rfl⟩
        have hce : cb = te := htile
        rw [tokSum_empty _ (le_of_eq hce.symm)]
        simp
  | cons c cs ih =>
    intro cfgs props acc buf cb te htile hlen1 hlen2 hbl hcw hks hacc
    cases cfgs with
    | nil => simp at hlen1
    | cons cfg cfgst =>
      cases props with
      | nil => simp at hlen2
      | cons pr prs =>
        obtain ⟨hb, hbe, ht⟩ := htile
        have hlen1' : cs.length = cfgst.length := by
          simp at hlen1; exact hlen1
        have hlen2' : cs.length = prs.length := by
          simp at hlen2; exact hlen2
        obtain ⟨hcete, hcsb⟩ := cellsTile_bounds cs c.e te ht
        have hcfg0 := hks 0 c cfg (by simp) (by simp)
        have hkcs : ∀ (k : Nat) (x : AlignmentCell)
            (g : AlignedColumnConfiguration),
            cs[k]? = some x → cfgst[k]? = some g →
            (¬ x.e ≤ x.b → x.compact_width ≤ g.width) ∧
            0 ≤ g.width ∧ 0 ≤ g.left_border := by
          intro k x g hx hg
          exact hks (k + 1) x g
            (by rw [List.getElem?_cons_succ]; exact hx)
            (by rw [List.getElem?_cons_succ]; exact hg)
        rw [AlignRowSpacings]
        by_cases h1 : c.e ≤ c.b
        · rw [if_pos h1]
          have hce : c.e = cb := by omega
          obtain ⟨accF, hF0, hFsum, hFfr⟩ :=
            ih cfgst prs (acc + cfg.left_border + cfg.width) buf c.e te ht
              hlen1' hlen2' hbl
              (fun x hx => hcw x (List.mem_cons_of_mem c hx)) hkcs
              (by omega)
          refine ⟨accF, hF0, ?_, ?_⟩
          · rw [← hce, hFsum, List.map_cons, List.sum_cons]
            have hTW : TotalWidth cfg = cfg.left_border + cfg.width := rfl
            omega
          · intro i hi
            exact hFfr i (by omega)
        · rw [if_neg h1]
          have hcb_lt : c.b < c.e := by omega
          have hcble : c.b < buf.length := by omega
          have hcompact : c.compact_width = EffectiveCellWidth buf c.b c.e :=
            hcw c (List.mem_cons_self c cs) h1
          have hECW : EffectiveCellWidth buf c.b c.e =
              tokSum buf c.b c.e - LeadingSpacesLength (tokAt buf c.b) := by
            rw [EffectiveCellWidth, if_neg h1]
          have hstep : tokSum buf c.b c.e =
              LeadingSpacesLength (tokAt buf c.b) + (tokAt buf c.b).len +
                tokSum buf (c.b + 1) c.e := tokSum_step buf hcb_lt
          have hwidth : c.compact_width ≤ cfg.width := hcfg0.1 h1
          have hsp : ∀ (wval : Int) (acc2 : Int), 0 ≤ acc2 →
              ∃ accF : Int, 0 ≤ accF ∧
                tokSum (AlignRowSpacings cfgst prs cs acc2
                    (setSp buf c.b wval)) cb te =
                  wval + (tokAt buf c.b).len + tokSum buf (c.b + 1) c.e +
                    (acc2 + ((cfgst.map TotalWidth).sum - accF)) ∧
                ∀ i : Nat, i < cb ∨ te ≤ i →
                  tokAt (AlignRowSpacings cfgst prs cs acc2
                    (setSp buf c.b wval)) i = tokAt buf i := by
            intro wval acc2 hacc2
            have hbl' : te ≤ (setSp buf c.b wval).length := by
              rw [setSp_length]; exact hbl
            have hagree : ∀ x, x ∈ cs → ∀ i, x.b ≤ i → i < x.e →
                tokAt (setSp buf c.b wval) i = tokAt buf i := by
              intro x hx i hi1 _
              have hxb := (hcsb x hx).1
              exact tokAt_setSp_ne buf (by omega) wval
            have hcw' : ∀ x ∈ cs, ¬ x.e ≤ x.b →
                x.compact_width =
                  EffectiveCellWidth (setSp buf c.b wval) x.b x.e := by
              intro x hx hxe
              rw [effectiveCellWidth_congr (hagree x hx)]
              exact hcw x (List.mem_cons_of_mem c hx) hxe
            obtain ⟨accF, hF0, hFsum, hFfr⟩ :=
              ih cfgst prs acc2 (setSp buf c.b wval) c.e te ht
                hlen1' hlen2' hbl' hcw' hkcs hacc2
            refine ⟨accF, hF0, ?_, ?_⟩
            · rw [tokSum_split _ (show cb ≤ c.e by omega) hcete]
              have hleft : tokSum (AlignRowSpacings cfgst prs cs acc2
                  (setSp buf c.b wval)) cb c.e =
                  wval + (tokAt buf c.b).len +
                    tokSum buf (c.b + 1) c.e := by
                rw [tokSum_congr (fun i hi1 hi2 => hFfr i (Or.inl hi2))]
                rw [← hb, tokSum_step _ (show c.b < c.e from hcb_lt)]
                rw [tokAt_setSp_eq buf hcble wval]
                have hrest : tokSum (setSp buf c.b wval) (c.b + 1) c.e =
                    tokSum buf (c.b + 1) c.e :=
                  tokSum_congr (fun i hi1 _ =>
                    tokAt_setSp_ne buf (by omega) wval)
                rw [hrest]
                rfl
              rw [hleft, hFsum]
            · intro i hi
              rw [hFfr i (by omega)]
              exact tokAt_setSp_ne buf (by omega) wval
          by_cases h2 : pr.flush_left
          · rw [if_pos h2]
            obtain ⟨accF, hF0, hFsum, hFfr⟩ :=
              hsp (acc + cfg.left_border)
                (cfg.width - c.compact_width) (by omega)
            refine ⟨accF, hF0, ?_, hFfr⟩
            rw [hFsum, List.map_cons, List.sum_cons]
            have hTW : TotalWidth cfg = cfg.left_border + cfg.width := rfl
            omega
          · rw [if_neg h2]
            obtain ⟨accF, hF0, hFsum, hFfr⟩ :=
              hsp (acc + cfg.left_border +
                (cfg.width - c.compact_width)) 0 (le_refl 0)
            refine ⟨accF, hF0, ?_, hFfr⟩
            rw [hFsum, List.map_cons, List.sum_cons]
            have hTW : TotalWidth cfg = cfg.left_border + cfg.width := rfl
            omega

/-- A successful backward trim lands strictly after the row begin and
at or before the original end. -/
theorem trimTokenRangeEnd_bounds (lastLeaf b : Nat) : ∀ (e e2 : Nat),
    trimTokenRangeEnd lastLeaf b e = some e2 → b < e2 ∧ e2 ≤ e := by
  intro e
  induction e with
  | zero => intro e2 h; exact Option.noConfusion h
  | succ e ih =>
    intro e2 h
    rw [trimTokenRangeEnd] at h
    by_cases h1 : e + 1 ≤ b
    · rw [if_pos h1] at h; exact Option.noConfusion h
    · rw [if_neg h1] at h
      by_cases h2 : e = lastLeaf
      · rw [if_pos h2] at h
        injection h with h3
        omega
      · rw [if_neg h2] at h
        have := ih e2 h
        omega

/-- A successful row range extraction keeps the row begin and trims the
end within the row. -/
theorem getMutableFormatTokenRange_spec {r : RowPartition}
    {be : Nat × Nat} (h : GetMutableFormatTokenRange r = some be) :
    be.1 = r.b ∧ r.b < be.2 ∧ be.2 ≤ r.e := by
  rw [GetMutableFormatTokenRange] at h
  cases htr : trimTokenRangeEnd r.lastLeaf r.b r.e with
  | none => rw [htr] at h; exact Option.noConfusion h
  | some e2 =>
    rw [htr] at h
    simp only [Option.map_some'] at h
    injection h with h2
    subst h2
    have := trimTokenRangeEnd_bounds r.lastLeaf r.b r.e e2 htr
    exact ⟨rfl, by omega, by omega⟩

/-- The per-row collection pairs each row with its trimmed token range
and its scanner output. -/
theorem collectRowData_spec
    (scanner : RowPartition → List ColumnPositionEntry) :
    ∀ (rows : List RowPartition) (rowData : List AlignmentRowData),
      collectRowData scanner rows = some rowData →
      rows.length = rowData.length ∧
      ∀ (k : Nat) (r : RowPartition) (rd : AlignmentRowData),
        rows[k]? = some r → rowData[k]? = some rd →
        rd.b = r.b ∧ r.b < rd.e ∧ rd.e ≤ r.e ∧
        rd.sparse_columns = scanner r := by
  intro rows
  induction rows with
  | nil =>
    intro rowData h
    rw [collectRowData] at h
    injection h with h2
    subst h2
    refine ⟨rfl, ?_⟩
    intro k r rd hr _
    rw [List.getElem?_nil] at hr
    exact Option.noConfusion hr
  | cons r rest ihr =>
    intro rowData h
    rw [collectRowData] at h
    cases hbe : GetMutableFormatTokenRange r with
    | none => rw [hbe] at h; exact Option.noConfusion h
    | some be =>
      rw [hbe] at h
      simp only [Option.pure_def, Option.bind_eq_bind, Option.some_bind]
        at h
      cases htl : collectRowData scanner rest with
      | none => rw [htl] at h; exact Option.noConfusion h
      | some tail =>
        rw [htl] at h
        injection h with h2
        subst h2
        obtain ⟨hlen, hall⟩ := ihr tail htl
        obtain ⟨hb1, hb2, hb3⟩ := getMutableFormatTokenRange_spec hbe
        refine ⟨by simp [hlen], ?_⟩
        intro k rr rd hr hrd
        cases k with
        | zero =>
          rw [List.getElem?_cons_zero] at hr hrd
          injection hr with hr2
          injection hrd with hrd2
          subst hr2
          subst hrd2
          exact ⟨hb1, hb2, hb3, rfl⟩
        | succ k2 =>
          rw [List.getElem?_cons_succ] at hr hrd
          exact hall k2 rr rd hr hrd

/-- Filling all rows succeeds exactly when each row fills, pairing the
row data with its cell row. -/
theorem fillAll_spec (positions : List SyntaxTreePath) :
    ∀ (rowData : List AlignmentRowData)
      (matrix0 : List (List AlignmentCell)),
      fillAll positions rowData = some matrix0 →
      rowData.length = matrix0.length ∧
      ∀ (k : Nat) (rd : AlignmentRowData) (row : List AlignmentCell),
        rowData[k]? = some rd → matrix0[k]? = some row →
        FillAlignmentRow positions rd = some row := by
  intro rowData
  induction rowData with
  | nil =>
    intro matrix0 h
    rw [fillAll] at h
    injection h with h2
    subst h2
    refine ⟨rfl, ?_⟩
    intro k rd row hrd _
    rw [List.getElem?_nil] at hrd
    exact Option.noConfusion hrd
  | cons rd rest ihr =>
    intro matrix0 h
    rw [fillAll] at h
    cases hfr : FillAlignmentRow positions rd with
    | none => rw [hfr] at h; exact Option.noConfusion h
    | some row0 =>
      rw [hfr] at h
      simp only [Option.pure_def, Option.bind_eq_bind, Option.some_bind]
        at h
      cases htl : fillAll positions rest with
      | none => rw [htl] at h; exact Option.noConfusion h
      | some tail =>
        rw [htl] at h
        injection h with h2
        subst h2
        obtain ⟨hlen, hall⟩ := ihr tail htl
        refine ⟨by simp [hlen], ?_⟩
        intro k rd2 row hrd hrow
        cases k with
        | zero =>
          rw [List.getElem?_cons_zero] at hrd hrow
          injection hrd with hrd2
          injection hrow with hrow2
          subst hrd2
          subst hrow2
          exact hfr
        | succ k2 =>
          rw [List.getElem?_cons_succ] at hrd hrow
          exact hall k2 rd2 row hrd hrow

/-- `setEndsRev` keeps the number of cells. -/
theorem setEndsRev_length : ∀ (l : List Nat) (ub : Nat),
    (setEndsRev l ub).length = l.length := by
  intro l
  induction l with
  | nil => intro ub; rfl
  | cons b rest ih =>
    intro ub
    rw [setEndsRev, List.length_cons, ih, List.length_cons]

/-- A filled row has one cell per schema column, and its cells tile the
row's trimmed token range starting at the first anchored token. -/
theorem fillAlignmentRow_spec {positions : List SyntaxTreePath}
    {rd : AlignmentRowData} {row : List AlignmentCell}
    (hbe : rd.b ≤ rd.e)
    (h : FillAlignmentRow positions rd = some row) :
    row.length = positions.length ∧
    (row = [] ∨ ∃ c0, row.head? = some c0 ∧ rd.b ≤ c0.b ∧
      cellsTile c0.b rd.e row) := by
  rw [FillAlignmentRow] at h
  cases hfb : fillBegins positions rd.e rd.sparse_columns 0 rd.b 0 with
  | none => rw [hfb] at h; exact Option.noConfusion h
  | some bs =>
    rw [hfb] at h
    simp only [Option.map_some'] at h
    injection h with h2
    obtain ⟨hlen, hch, hmem⟩ :=
      fillBegins_spec positions rd.e rd.sparse_columns 0 rd.b 0 bs hbe
        (by omega) hfb
    rw [Nat.sub_zero] at hlen
    subst h2
    have htile := buildCells_tile rd.e bs hch (fun x hx => (hmem x hx).2)
    refine ⟨?_, ?_⟩
    · rw [List.length_reverse, setEndsRev_length, List.length_reverse,
        hlen]
    · cases bs with
      | nil => exact Or.inl rfl
      | cons b bsr =>
        refine Or.inr ⟨⟨b, bsr.head?.getD rd.e, 0, 0⟩, ?_, ?_, ?_⟩
        · rw [buildCells_cons]
          rfl
        · exact (hmem b (List.mem_cons_self b bsr)).1
        · exact htile

/-- The schema's property list is as long as its position list. -/
theorem afrProps_length (rowData : List AlignmentRowData) :
    (afrProps rowData).length = (afrPositions rowData).length := by
  rw [afrProps, afrPositions, List.length_map, List.length_map]

/-- The width matrix: one row per row data, each row one cell per
schema column, with widths measured on the buffer and cells tiling the
row's trimmed range. -/
theorem afrMatrix_spec {buf : TokBuf} {rowData : List AlignmentRowData}
    {matrix : List (List AlignmentCell)}
    (h : afrMatrix buf rowData = some matrix)
    (hbe : ∀ rd ∈ rowData, rd.b ≤ rd.e) :
    rowData.length = matrix.length ∧
    ∀ (k : Nat) (rd : AlignmentRowData) (mrow : List AlignmentCell),
      rowData[k]? = some rd → matrix[k]? = some mrow →
      mrow.length = (afrPositions rowData).length ∧
      (∀ c ∈ mrow, c.compact_width = EffectiveCellWidth buf c.b c.e ∧
        c.left_border_width = EffectiveLeftBorderWidth buf c.b c.e) ∧
      (mrow = [] ∨ ∃ c0, mrow.head? = some c0 ∧ rd.b ≤ c0.b ∧
        cellsTile c0.b rd.e mrow) := by
  rw [afrMatrix] at h
  cases hfa : fillAll (afrPositions rowData) rowData with
  | none => rw [hfa] at h; exact Option.noConfusion h
  | some matrix0 =>
    rw [hfa] at h
    simp only [Option.map_some'] at h
    injection h with h2
    subst h2
    obtain ⟨hlen, hall⟩ := fillAll_spec (afrPositions rowData) rowData
      matrix0 hfa
    refine ⟨by rw [ComputeCellWidths, List.length_map, hlen], ?_⟩
    intro k rd mrow hrd hmrow
    rw [ComputeCellWidths, List.getElem?_map] at hmrow
    cases hm0 : matrix0[k]? with
    | none => rw [hm0] at hmrow; exact Option.noConfusion hmrow
    | some row0 =>
      rw [hm0] at hmrow
      simp only [Option.map_some'] at hmrow
      injection hmrow with hmrow2
      have hfr := hall k rd row0 hrd hm0
      have hrdmem : rd ∈ rowData := List.getElem?_mem hrd
      obtain ⟨hl0, htile0⟩ :=
        fillAlignmentRow_spec (hbe rd hrdmem) hfr
      subst hmrow2
      refine ⟨by rw [List.length_map, hl0], ?_, ?_⟩
      · intro c hc
        obtain ⟨x, _, hxc⟩ := List.mem_map.mp hc
        subst hxc
        exact ⟨rfl, rfl⟩
      · rcases htile0 with h0 | ⟨c0, hhead, hc0b, htl⟩
        · subst h0
          exact Or.inl rfl
        · refine Or.inr ⟨UpdateWidths buf c0, ?_, hc0b, ?_⟩
          · rw [List.head?_map, hhead]
            rfl
          · exact cellsTile_map_update buf row0 c0.b rd.e htl

/-- The folded column configs of `ComputeColumnWidths` dominate the
seed configs and every row's cell widths at each column. -/
theorem computeColumnWidths_foldl :
    ∀ (rowsM : List (List AlignmentCell))
      (init : List AlignedColumnConfiguration),
      (∀ row ∈ rowsM, init.length ≤ row.length) →
      (rowsM.foldl (fun cfgs row => List.zipWith UpdateFromCell cfgs row)
        init).length = init.length ∧
      ∀ (k : Nat) (cfg : AlignedColumnConfiguration),
        (rowsM.foldl
          (fun cfgs row => List.zipWith UpdateFromCell cfgs row)
          init)[k]? = some cfg →
        (∀ c0, init[k]? = some c0 →
          c0.width ≤ cfg.width ∧ c0.left_border ≤ cfg.left_border) ∧
        (∀ row ∈ rowsM, ∀ c : AlignmentCell, row[k]? = some c →
          c.compact_width ≤ cfg.width ∧
          c.left_border_width ≤ cfg.left_border) := by
  intro rowsM
  induction rowsM with
  | nil =>
    intro init _
    refine ⟨rfl, ?_⟩
    intro k cfg hcfg
    refine ⟨?_, ?_⟩
    · intro c0 hc0
      rw [List.foldl_nil] at hcfg
      rw [hcfg] at hc0
      injection hc0 with h2
      subst h2
      exact ⟨le_refl _, le_refl _⟩
    · intro row hrow
      exact absurd hrow (List.not_mem_nil row)
  | cons row0 rows ihr =>
    intro init hrl
    have hlen0 :
        (List.zipWith UpdateFromCell init row0).length = init.length := by
      rw [List.length_zipWith]
      have := hrl row0 (List.mem_cons_self row0 rows)
      omega
    have hrl' : ∀ row ∈ rows,
        (List.zipWith UpdateFromCell init row0).length ≤ row.length := by
      intro row hrow
      rw [hlen0]
      exact hrl row (List.mem_cons_of_mem row0 hrow)
    obtain ⟨ihlen, ihk⟩ := ihr (List.zipWith UpdateFromCell init row0) hrl'
    rw [List.foldl_cons]
    refine ⟨by rw [ihlen, hlen0], ?_⟩
    intro k cfg hcfg
    obtain ⟨ihinit, ihrows⟩ := ihk k cfg hcfg
    have hkin : k < init.length := by
      by_contra hk
      rw [List.getElem?_eq_none (by omega : (List.foldl
        (fun cfgs row => List.zipWith UpdateFromCell cfgs row)
        (List.zipWith UpdateFromCell init row0) rows).length ≤ k)] at hcfg
      exact Option.noConfusion hcfg
    have hkrow : k < row0.length := by
      have := hrl row0 (List.mem_cons_self row0 rows)
      omega
    obtain ⟨c1, hc1⟩ : ∃ c1, row0[k]? = some c1 := by
      cases hc : row0[k]? with
      | none => rw [List.getElem?_eq_none_iff] at hc; omega
      | some c1 => exact ⟨c1, rfl⟩
    constructor
    · intro c0 hc0
      have hinitk : (List.zipWith UpdateFromCell init row0)[k]? =
          some (UpdateFromCell c0 c1) := by
        rw [List.getElem?_zipWith, hc0, hc1]
      have hup := ihinit (UpdateFromCell c0 c1) hinitk
      have hm1 : (UpdateFromCell c0 c1).width =
          max c0.width c1.compact_width := rfl
      have hm2 : (UpdateFromCell c0 c1).left_border =
          max c0.left_border c1.left_border_width := rfl
      constructor
      · calc c0.width ≤ (UpdateFromCell c0 c1).width := by
              rw [hm1]; exact le_max_left _ _
          _ ≤ cfg.width := hup.1
      · calc c0.left_border ≤ (UpdateFromCell c0 c1).left_border := by
              rw [hm2]; exact le_max_left _ _
          _ ≤ cfg.left_border := hup.2
    · intro row hrow c hc
      rcases List.mem_cons.mp hrow with h0 | hmem
      · obtain ⟨c0, hc0⟩ : ∃ c0, init[k]? = some c0 := by
          cases hc2 : init[k]? with
          | none => rw [List.getElem?_eq_none_iff] at hc2; omega
          | some c0 => exact ⟨c0, rfl⟩
        rw [h0, hc1] at hc
        injection hc with hcc
        subst hcc
        have hinitk : (List.zipWith UpdateFromCell init row0)[k]? =
            some (UpdateFromCell c0 c1) := by
          rw [List.getElem?_zipWith, hc0, hc1]
        have hup := ihinit (UpdateFromCell c0 c1) hinitk
        have hm1 : (UpdateFromCell c0 c1).width =
            max c0.width c1.compact_width := rfl
        have hm2 : (UpdateFromCell c0 c1).left_border =
            max c0.left_border c1.left_border_width := rfl
        constructor
        · calc c1.compact_width ≤ (UpdateFromCell c0 c1).width := by
                rw [hm1]; exact le_max_right _ _
            _ ≤ cfg.width := hup.1
        · calc c1.left_border_width ≤
                (UpdateFromCell c0 c1).left_border := by
                rw [hm2]; exact le_max_right _ _
            _ ≤ cfg.left_border := hup.2
      · exact ihrows row hmem c hc

/-- When the epilog check passes, every row's epilog fits the budget. -/
theorem epilogOverflow_false {buf : TokBuf} {rows : List RowPartition}
    {matrix : List (List AlignmentCell)} {total limit : Int}
    (h : epilogOverflow buf rows matrix total limit = false) :
    ∀ (k : Nat) (r : RowPartition) (mrow : List AlignmentCell),
      rows[k]? = some r → matrix[k]? = some mrow →
      ∀ c : AlignmentCell, mrow.getLast? = some c →
      total + EffectiveCellWidth buf c.e r.e ≤ limit := by
  intro k r mrow hr hm c hc
  rw [epilogOverflow, List.any_eq_false] at h
  have hzip : (rows.zip matrix)[k]? = some (r, mrow) := by
    rw [List.zip, List.getElem?_zipWith, hr, hm]
  have h2 := h (r, mrow) (List.getElem?_mem hzip)
  have h3 : (match mrow.getLast? with
      | none => false
      | some c =>
        decide (limit < total + EffectiveCellWidth buf c.e r.e)) ≠
      true := h2
  rw [hc] at h3
  simp at h3
  omega

/-- In a disjoint chain of forward rows, the head row ends before every
later row begins. -/
theorem rows_head_sep :
    ∀ (rows : List RowPartition) (r0 : RowPartition),
      (r0 :: rows).Chain' (fun a b => a.e ≤ b.b) →
      (∀ r ∈ rows, r.b ≤ r.e) →
      ∀ r ∈ rows, r0.e ≤ r.b := by
  intro rows
  induction rows with
  | nil =>
    intro r0 _ _ r hr
    exact absurd hr (List.not_mem_nil r)
  | cons r1 rs ih =>
    intro r0 hch hbe r hr
    have h01 : r0.e ≤ r1.b := (List.chain'_cons.mp hch).1
    rcases List.mem_cons.mp hr with h | h
    · subst h
      exact h01
    · have hb1 : r1.b ≤ r1.e := hbe r1 (List.mem_cons_self r1 rs)
      have h1e := ih r1 (List.chain'_cons.mp hch).2
        (fun x hx => hbe x (List.mem_cons_of_mem r1 hx)) r h
      omega

/-- Non-empty cells of a head-tiled row begin inside the row's trimmed
range. -/
theorem row_writes_bounded
    {mrow : List AlignmentCell} {rdb rde : Nat}
    (hhead : ∀ c0 : AlignmentCell, mrow.head? = some c0 →
      rdb ≤ c0.b ∧ cellsTile c0.b rde mrow) :
    ∀ c ∈ mrow, ¬ c.e ≤ c.b → rdb ≤ c.b ∧ c.b < rde := by
  intro c hc hce
  cases hh : mrow.head? with
  | none =>
    rw [List.head?_eq_none_iff] at hh
    subst hh
    exact absurd hc (List.not_mem_nil c)
  | some ch =>
    obtain ⟨hchb, htile⟩ := hhead ch hh
    obtain ⟨_, hall⟩ := cellsTile_bounds mrow ch.b rde htile
    have := hall c hc
    omega

/-- The respacing loop over several rows leaves an index alone when no
row writes there. -/
theorem respace_foldl_frame :
    ∀ (matrix : List (List AlignmentCell))
      (cfgs : List AlignedColumnConfiguration)
      (props : List AlignmentColumnProperties) (buf : TokBuf) (i : Nat),
      (∀ row ∈ matrix, ∀ c ∈ row, ¬ c.e ≤ c.b → c.b ≠ i) →
      tokAt (matrix.foldl
        (fun b row => AlignRowSpacings cfgs props row 0 b) buf) i =
        tokAt buf i := by
  intro matrix
  induction matrix with
  | nil => intro cfgs props buf i _; rfl
  | cons row rows ih =>
    intro cfgs props buf i hw
    rw [List.foldl_cons, ih cfgs props _ i
      (fun r hr => hw r (List.mem_cons_of_mem row hr)),
      alignRowSpacings_frame row cfgs props 0 buf i
      (hw row (List.mem_cons_self row rows))]

/-- The respacing loop keeps, for every row whose pipeline facts hold
and whose cell list is non-empty, the rendered row width within the
column limit plus the two quantities the budget check never counts: the
leading spaces of the epilog's first token and the width of the tokens
between the row begin and its first cell. -/
theorem respace_fold_bound
    (cfgs : List AlignedColumnConfiguration)
    (props : List AlignmentColumnProperties) (limit I : Int) :
    ∀ (matrix : List (List AlignmentCell)) (rows : List RowPartition)
      (rowData : List AlignmentRowData) (buf : TokBuf),
      rows.length = rowData.length → rows.length = matrix.length →
      rows.Chain' (fun a b => a.e ≤ b.b) →
      (∀ (k : Nat) (r : RowPartition) (rd : AlignmentRowData)
        (mrow : List AlignmentCell),
        rows[k]? = some r → rowData[k]? = some rd →
        matrix[k]? = some mrow →
        rowOk cfgs props limit I buf r rd mrow) →
      ∀ (k : Nat) (r : RowPartition) (rd : AlignmentRowData)
        (mrow : List AlignmentCell) (c0 : AlignmentCell),
        rows[k]? = some r → rowData[k]? = some rd →
        matrix[k]? = some mrow → mrow.head? = some c0 →
        renderedWidth
          (matrix.foldl (fun b row => AlignRowSpacings cfgs props row 0 b)
            buf) r ≤
          limit + epilogLead buf rd r + tokSum buf rd.b c0.b := by
  intro matrix
  induction matrix with
  | nil =>
    intro rows rowData buf _ _ _ _ k r rd mrow c0 _ _ hm _
    rw [List.getElem?_nil] at hm
    exact Option.noConfusion hm
  | cons mrow0 mrest ih =>
    intro rows rowData buf hlen1 hlen2 hch hper k r rd mrow c0 hr hrd hm hc0
    cases rows with
    | nil => simp at hlen2
    | cons r0 rrest =>
      cases rowData with
      | nil => simp at hlen1
      | cons rd0 rdrest =>
        obtain ⟨hb0, hbe0, hde0, hbl0, hind0, hlc0, hlp0, hcw0, hkb0,
          hhead0, hbud0⟩ :=
          hper 0 r0 rd0 mrow0 (by simp) (by simp) (by simp)
        have hlen1a : rrest.length = rdrest.length := by
          simp at hlen1; omega
        have hlen2a : rrest.length = mrest.length := by
          simp at hlen2; omega
        have htails : ∀ (j : Nat) (r2 : RowPartition)
            (rd2 : AlignmentRowData) (m2 : List AlignmentCell),
            rrest[j]? = some r2 → rdrest[j]? = some rd2 →
            mrest[j]? = some m2 →
            rowOk cfgs props limit I buf r2 rd2 m2 := by
          intro j r2 rd2 m2 h1 h2 h3
          exact hper (j + 1) r2 rd2 m2
            (by rw [List.getElem?_cons_succ]; exact h1)
            (by rw [List.getElem?_cons_succ]; exact h2)
            (by rw [List.getElem?_cons_succ]; exact h3)
        have hgetd : ∀ (j : Nat) (r2 : RowPartition),
            rrest[j]? = some r2 →
            ∃ rd2 m2, rdrest[j]? = some rd2 ∧ mrest[j]? = some m2 := by
          intro j r2 hj
          have hjl : j < rrest.length := by
            by_contra hk
            rw [List.getElem?_eq_none (by omega)] at hj
            exact Option.noConfusion hj
          obtain ⟨rd2, h1⟩ : ∃ rd2, rdrest[j]? = some rd2 := by
            cases hg : rdrest[j]? with
            | none => rw [List.getElem?_eq_none_iff] at hg; omega
            | some rd2 => exact ⟨rd2, rfl⟩
          obtain ⟨m2, h2⟩ : ∃ m2, mrest[j]? = some m2 := by
            cases hg : mrest[j]? with
            | none => rw [List.getElem?_eq_none_iff] at hg; omega
            | some m2 => exact ⟨m2, rfl⟩
          exact ⟨rd2, m2, h1, h2⟩
        have hble : ∀ r2 ∈ rrest, r2.b ≤ r2.e := by
          intro r2 hr2
          obtain ⟨j, hj⟩ := List.mem_iff_getElem?.mp hr2
          obtain ⟨rd2, m2, h1, h2⟩ := hgetd j r2 hj
          obtain ⟨g1, g2, g3, _⟩ := htails j r2 rd2 m2 hj h1 h2
          omega
        have hsep := rows_head_sep rrest r0 hch hble
        have hfr1 : ∀ i : Nat, r0.e ≤ i →
            tokAt (AlignRowSpacings cfgs props mrow0 0 buf) i =
              tokAt buf i := by
          intro i hi
          apply alignRowSpacings_frame
          intro c hc hce
          have := row_writes_bounded hhead0 c hc hce
          omega
        have hrestframe : ∀ (bufX : TokBuf) (i : Nat), i < r0.e →
            tokAt (mrest.foldl
              (fun b row => AlignRowSpacings cfgs props row 0 b) bufX) i =
              tokAt bufX i := by
          intro bufX i hi
          apply respace_foldl_frame
          intro row hrow c hc hce
          obtain ⟨j, hj⟩ := List.mem_iff_getElem?.mp hrow
          obtain ⟨r2, hr2⟩ : ∃ r2, rrest[j]? = some r2 := by
            have hjl : j < mrest.length := by
              by_contra hk
              rw [List.getElem?_eq_none (by omega)] at hj
              exact Option.noConfusion hj
            cases hg : rrest[j]? with
            | none => rw [List.getElem?_eq_none_iff] at hg; omega
            | some r2 => exact ⟨r2, rfl⟩
          obtain ⟨rd2, m2, h1, h2⟩ := hgetd j r2 hr2
          rw [hj] at h2
          injection h2 with h2e
          subst h2e
          obtain ⟨g1, g2, g3, g4, g5, g6, g7, g8, g9, g10, g11⟩ :=
            htails j r2 rd2 row hr2 h1 hj
          have hwb := row_writes_bounded g10 c hc hce
          have hs := hsep r2 (List.getElem?_mem hr2)
          omega
        simp only [List.foldl_cons]
        cases k with
        | zero =>
          rw [List.getElem?_cons_zero] at hr hrd hm
          injection hr with hre
          injection hrd with hrde
          injection hm with hme
          subst hre
          subst hrde
          subst hme
          obtain ⟨hc0b, htile⟩ := hhead0 c0 hc0
          obtain ⟨hc0e, hcbnd⟩ := cellsTile_bounds mrow0 c0.b rd0.e htile
          have hne : mrow0 ≠ [] := by
            intro he
            rw [he] at hc0
            exact Option.noConfusion hc0
          obtain ⟨cl, hcl⟩ : ∃ cl, mrow0.getLast? = some cl := by
            cases hg : mrow0.getLast? with
            | none =>
              rw [List.getLast?_eq_none_iff] at hg
              exact absurd hg hne
            | some cl => exact ⟨cl, rfl⟩
          have hcle : cl.e = rd0.e :=
            cellsTile_getLast mrow0 c0.b rd0.e htile cl hcl
          have hbudget := hbud0 cl hcl
          rw [hcle] at hbudget
          obtain ⟨accF, hF0, hFsum, hFfr⟩ :=
            alignRow_sum mrow0 cfgs props 0 buf c0.b rd0.e htile hlc0 hlp0
              (by omega) hcw0 hkb0 (le_refl 0)
          rw [renderedWidth]
          rw [tokSum_congr (fun i hi1 hi2 =>
            hrestframe (AlignRowSpacings cfgs props mrow0 0 buf) i hi2)]
          rw [tokSum_split (AlignRowSpacings cfgs props mrow0 0 buf)
            (show r0.b ≤ c0.b by omega) (show c0.b ≤ r0.e by omega)]
          rw [tokSum_split (AlignRowSpacings cfgs props mrow0 0 buf)
            (show c0.b ≤ rd0.e by omega) (show rd0.e ≤ r0.e from hde0)]
          have hseg1 : tokSum (AlignRowSpacings cfgs props mrow0 0 buf)
              r0.b c0.b = tokSum buf r0.b c0.b :=
            tokSum_congr (fun i hi1 hi2 => by
              apply alignRowSpacings_frame
              intro c hc hce
              have := (hcbnd c hc).1
              omega)
          have hseg3 : tokSum (AlignRowSpacings cfgs props mrow0 0 buf)
              rd0.e r0.e = tokSum buf rd0.e r0.e :=
            tokSum_congr (fun i hi1 hi2 => by
              apply alignRowSpacings_frame
              intro c hc hce
              have := hcbnd c hc
              omega)
          have hepi : tokSum buf rd0.e r0.e =
              epilogLead buf rd0 r0 +
                EffectiveCellWidth buf rd0.e r0.e := by
            rw [epilogLead, EffectiveCellWidth]
            by_cases he : rd0.e < r0.e
            · rw [if_pos he, if_neg (show ¬ r0.e ≤ rd0.e by omega)]
              have hl : LeadingSpacesLength (tokAt buf rd0.e) =
                  (tokAt buf rd0.e).sp := rfl
              omega
            · rw [if_neg he, if_pos (show r0.e ≤ rd0.e by omega),
                tokSum_empty buf (by omega)]
              omega
          rw [hseg1, hFsum, hseg3, hepi, hind0, hb0]
          omega
        | succ k2 =>
          rw [List.getElem?_cons_succ] at hr hrd hm
          obtain ⟨g1, g2, g3, g4, g5, g6, g7, g8, g9, g10, g11⟩ :=
            htails k2 r rd mrow hr hrd hm
          have hrsep : r0.e ≤ r.b := hsep r (List.getElem?_mem hr)
          have hper1 : ∀ (j : Nat) (r2 : RowPartition)
              (rd2 : AlignmentRowData) (m2 : List AlignmentCell),
              rrest[j]? = some r2 → rdrest[j]? = some rd2 →
              mrest[j]? = some m2 →
              rowOk cfgs props limit I
                (AlignRowSpacings cfgs props mrow0 0 buf) r2 rd2 m2 := by
            intro j r2 rd2 m2 h1 h2 h3
            obtain ⟨f1, f2, f3, f4, f5, f6, f7, f8, f9, f10, f11⟩ :=
              htails j r2 rd2 m2 h1 h2 h3
            have hr2sep : r0.e ≤ r2.b := hsep r2 (List.getElem?_mem h1)
            refine ⟨f1, f2, f3, ?_, f5, f6, f7, ?_, f9, f10, ?_⟩
            · rw [alignRowSpacings_length]
              exact f4
            · intro c hc hce
              have hcb := row_writes_bounded f10 c hc hce
              rw [effectiveCellWidth_congr
                (fun i hi1 hi2 => hfr1 i (by omega))]
              exact f8 c hc hce
            · intro cl2 hcl2
              have hb := f11 cl2 hcl2
              have hcl2mem := List.mem_of_mem_getLast? hcl2
              obtain ⟨ch, hch2⟩ : ∃ ch, m2.head? = some ch := by
                cases hh : m2.head? with
                | none =>
                  rw [List.head?_eq_none_iff] at hh
                  rw [hh] at hcl2
                  exact Option.noConfusion hcl2
                | some ch => exact ⟨ch, rfl⟩
              obtain ⟨hchb, htile2⟩ := f10 ch hch2
              have hbnd2 :=
                (cellsTile_bounds m2 ch.b rd2.e htile2).2 cl2 hcl2mem
              rw [effectiveCellWidth_congr
                (fun i hi1 hi2 => hfr1 i (by omega))]
              exact hb
          have hconc := ih rrest rdrest
            (AlignRowSpacings cfgs props mrow0 0 buf) hlen1a hlen2a
            (List.Chain'.tail hch) hper1 k2 r rd mrow c0 hr hrd hm hc0
          have hfr2 : ∀ i : Nat, r.b ≤ i →
              tokAt (AlignRowSpacings cfgs props mrow0 0 buf) i =
                tokAt buf i := by
            intro i hi
            exact hfr1 i (by omega)
          have hel : epilogLead (AlignRowSpacings cfgs props mrow0 0 buf)
              rd r = epilogLead buf rd r := by
            rw [epilogLead, epilogLead]
            by_cases he : rd.e < r.e
            · rw [if_pos he, if_pos he, hfr2 rd.e (by omega)]
            · rw [if_neg he, if_neg he]
          have hts : tokSum (AlignRowSpacings cfgs props mrow0 0 buf)
              rd.b c0.b = tokSum buf rd.b c0.b :=
            tokSum_congr (fun i hi1 hi2 => hfr2 i (by omega))
          rw [hel, hts] at hconc
          exact hconc

/-- C5 (amended): whenever the engine aligns a group — at least two
rows of one syntax kind, both width checks passed — the aligned buffer
is returned, and every row holding at least one column cell renders
within the column limit plus exactly the two spacing quantities the
budget check never measures: the leading spaces of the row's first
epilog token (`EffectiveCellWidth` drops them) and the width of the
tokens between the row begin and its first cell.  The original claim,
which allows no such slack, is refuted by `claim_C5_counterexample`.
The provisos: rows are disjoint and ordered, lie inside the buffer, and
share the first row's indentation. -/
theorem claim_C5_aligned_rows_fit {buf : TokBuf}
    {rows : List RowPartition}
    {scanner : RowPartition → List ColumnPositionEntry} {limit : Int}
    {rowData : List AlignmentRowData}
    {matrix : List (List AlignmentCell)}
    (hlen : ¬ rows.length ≤ 1)
    (hver : VerifyRowsOriginalNodeTypes rows = true)
    (hcd : collectRowData scanner rows = some rowData)
    (hm : afrMatrix buf rowData = some matrix)
    (htot : ¬ limit < afrTotal rows matrix)
    (hep : epilogOverflow buf rows matrix (afrTotal rows matrix) limit =
      false)
    (hch : rows.Chain' (fun a b => a.e ≤ b.b))
    (hin : ∀ r ∈ rows, r.e ≤ buf.length)
    (hind : ∀ r ∈ rows, r.indent = rowsIndent rows) :
    AlignFilteredRows buf rows scanner limit =
      some (respaceAll (ComputeColumnWidths matrix) (afrProps rowData)
        matrix buf) ∧
    ∀ (k : Nat) (r : RowPartition) (rd : AlignmentRowData)
      (mrow : List AlignmentCell) (c0 : AlignmentCell),
      rows[k]? = some r → rowData[k]? = some rd →
      matrix[k]? = some mrow → mrow.head? = some c0 →
      renderedWidth
        (respaceAll (ComputeColumnWidths matrix) (afrProps rowData)
          matrix buf) r ≤
        limit + epilogLead buf rd r + tokSum buf rd.b c0.b := by
  constructor
  · have heq := @afr_eq_checks buf rows scanner limit rowData matrix
      hlen hver hcd hm
    rw [if_neg htot] at heq
    simp only [hep, Bool.false_eq_true, if_false] at heq
    exact heq
  · obtain ⟨hlcd, hcdk⟩ := collectRowData_spec scanner rows rowData hcd
    have hbe : ∀ rd ∈ rowData, rd.b ≤ rd.e := by
      intro rd hrd
      obtain ⟨j, hj⟩ := List.mem_iff_getElem?.mp hrd
      obtain ⟨r, hr⟩ : ∃ r, rows[j]? = some r := by
        have hjl : j < rowData.length := by
          by_contra hk
          rw [List.getElem?_eq_none (by omega)] at hj
          exact Option.noConfusion hj
        cases hg : rows[j]? with
        | none => rw [List.getElem?_eq_none_iff] at hg; omega
        | some r => exact ⟨r, rfl⟩
      have := hcdk j r rd hr hj
      omega
    obtain ⟨hlm, hmk⟩ := afrMatrix_spec hm hbe
    have hget2 : ∀ (j : Nat) (rd2 : AlignmentRowData),
        rowData[j]? = some rd2 →
        ∃ r2 m2, rows[j]? = some r2 ∧ matrix[j]? = some m2 := by
      intro j rd2 hj
      have hjl : j < rowData.length := by
        by_contra hk
        rw [List.getElem?_eq_none (by omega)] at hj
        exact Option.noConfusion hj
      obtain ⟨r2, h1⟩ : ∃ r2, rows[j]? = some r2 := by
        cases hg : rows[j]? with
        | none => rw [List.getElem?_eq_none_iff] at hg; omega
        | some r2 => exact ⟨r2, rfl⟩
      obtain ⟨m2, h2⟩ : ∃ m2, matrix[j]? = some m2 := by
        cases hg : matrix[j]? with
        | none => rw [List.getElem?_eq_none_iff] at hg; omega
        | some m2 => exact ⟨m2, rfl⟩
      exact ⟨r2, m2, h1, h2⟩
    -- the matrix is non-empty and rectangular
    cases matrix with
    | nil =>
      intro k r rd mrow c0 _ _ hmm _
      rw [List.getElem?_nil] at hmm
      exact Option.noConfusion hmm
    | cons m0 mtail =>
      have hm0len : m0.length = (afrPositions rowData).length := by
        obtain ⟨rd0, hrd0⟩ : ∃ rd0, rowData[0]? = some rd0 := by
          cases hg : rowData[0]? with
          | none =>
            rw [List.getElem?_eq_none_iff] at hg
            rw [hlm] at hg
            simp at hg
          | some rd0 => exact ⟨rd0, rfl⟩
        exact (hmk 0 rd0 m0 hrd0 (by simp)).1
      have hinit : ∀ row ∈ m0 :: mtail,
          (List.replicate m0.length
            (⟨0, 0⟩ : AlignedColumnConfiguration)).length ≤
            row.length := by
        intro row hrow
        obtain ⟨j, hj⟩ := List.mem_iff_getElem?.mp hrow
        obtain ⟨rd2, hrd2⟩ : ∃ rd2, rowData[j]? = some rd2 := by
          have hjl : j < (m0 :: mtail).length := by
            by_contra hk
            rw [List.getElem?_eq_none (by omega)] at hj
            exact Option.noConfusion hj
          cases hg : rowData[j]? with
          | none => rw [List.getElem?_eq_none_iff] at hg; omega
          | some rd2 => exact ⟨rd2, rfl⟩
        have := (hmk j rd2 row hrd2 hj).1
        rw [List.length_replicate, hm0len]
        omega
      obtain ⟨hccwlen, hccwk⟩ := computeColumnWidths_foldl (m0 :: mtail)
        (List.replicate m0.length ⟨0, 0⟩) hinit
      have hcfglen : (ComputeColumnWidths (m0 :: mtail)).length =
          (afrPositions rowData).length := by
        rw [ComputeColumnWidths, hccwlen, List.length_replicate, hm0len]
      have htotal : afrTotal rows (m0 :: mtail) =
          rowsIndent rows +
            ((ComputeColumnWidths (m0 :: mtail)).map TotalWidth).sum := by
        rw [afrTotal, totalColumnWidth_eq]
      -- per-row pipeline facts
      have hper : ∀ (k : Nat) (r : RowPartition) (rd : AlignmentRowData)
          (mrow : List AlignmentCell),
          rows[k]? = some r → rowData[k]? = some rd →
          (m0 :: mtail)[k]? = some mrow →
          rowOk (ComputeColumnWidths (m0 :: mtail)) (afrProps rowData)
            limit (rowsIndent rows) buf r rd mrow := by
        intro k r rd mrow hr hrd hmm
        obtain ⟨hg1, hg2, hg3, hg4⟩ := hcdk k r rd hr hrd
        obtain ⟨hml, hmw, hmt⟩ := hmk k rd mrow hrd hmm
        have hrmem := List.getElem?_mem hr
        refine ⟨hg1, by omega, hg3, hin r hrmem, hind r hrmem,
          ?_, ?_, ?_, ?_, ?_, ?_⟩
        · rw [hml, hcfglen]
        · rw [hml, afrProps_length]
        · intro c hc _
          exact (hmw c hc).1
        · intro j c cfg hcj hcfgj
          have hrowbound := (hccwk j cfg
            (by rw [ComputeColumnWidths] at hcfgj; exact hcfgj)).2
            mrow (List.getElem?_mem hmm) c hcj
          have hjlen : j < (ComputeColumnWidths (m0 :: mtail)).length := by
            by_contra hk
            rw [List.getElem?_eq_none (by omega)] at hcfgj
            exact Option.noConfusion hcfgj
          have hinitj : (List.replicate m0.length
              (⟨0, 0⟩ : AlignedColumnConfiguration))[j]? =
              some ⟨0, 0⟩ := by
            rw [List.getElem?_replicate]
            rw [if_pos (by
              rw [hcfglen] at hjlen
              rw [hm0len]
              omega)]
          have hzero := (hccwk j cfg
            (by rw [ComputeColumnWidths] at hcfgj; exact hcfgj)).1
            ⟨0, 0⟩ hinitj
          exact ⟨fun _ => hrowbound.1, hzero.1, hzero.2⟩
        · intro c0 hc0
          rcases hmt with he | ⟨c1, hc1, hc1b, htile⟩
          · rw [he] at hc0
            exact Option.noConfusion hc0
          · rw [hc1] at hc0
            injection hc0 with hc0e
            subst hc0e
            exact ⟨hc1b, htile⟩
        · intro cl hcl
          have hbound := epilogOverflow_false hep k r mrow hr hmm cl hcl
          rw [htotal] at hbound
          omega
      intro k r rd mrow c0 hr hrd hmm hc0
      have := respace_fold_bound (ComputeColumnWidths (m0 :: mtail))
        (afrProps rowData) limit (rowsIndent rows) (m0 :: mtail) rows
        rowData buf hlcd (by rw [hlcd, hlm]) hch hper k r rd mrow c0
        hr hrd hmm hc0
      rw [respaceAll]
      exact this

/-- Witness for the amended C5 bound: the two-row example group is
aligned and its first row renders within the limit plus the two
uncounted spacing quantities. -/
theorem claim_C5_witness :
    AlignFilteredRows exBuf [exR0, exR1] exScan 40 =
      some (respaceAll (ComputeColumnWidths exMatrix)
        (afrProps exRowData) exMatrix exBuf) ∧
    renderedWidth (respaceAll (ComputeColumnWidths exMatrix)
        (afrProps exRowData) exMatrix exBuf) exR0 ≤
      40 + epilogLead exBuf ⟨0, 4, exScan exR0⟩ exR0 +
        tokSum exBuf 0 0 := by
  have h := @claim_C5_aligned_rows_fit exBuf [exR0, exR1] exScan 40
    exRowData exMatrix (by decide) (by decide) (by decide) (by decide)
    (by decide) (by decide)
    (List.Chain.cons (by decide) List.Chain.nil) (by decide) (by decide)
  refine ⟨h.1, ?_⟩
  have h2 := h.2 0 exR0 ⟨0, 4, exScan exR0⟩
    [⟨0, 1, 1, 0⟩, ⟨1, 2, 1, 1⟩, ⟨2, 3, 1, 1⟩, ⟨3, 4, 1, 0⟩]
    ⟨0, 1, 1, 0⟩ (by decide) (by decide) (by decide) (by decide)
  exact h2

end AlignM

namespace GroupM

theorem detectorStep_nonempty (text : List Char) (prevEnd : Nat)
    {c : ChildTokens} (h : c ≠ []) :
    detectorStep text prevEnd c =
      (childEnd c, decide (2 ≤ countNewlines text prevEnd (childBegin c))) := by
  cases c with
  | nil => exact absurd rfl h
  | cons f rest =>
    have hl : (f :: rest).getLast? = some ((f :: rest).getLast (by simp)) :=
      List.getLast?_eq_getLast _ _
    unfold detectorStep childEnd childBegin
    rw [hl]
    simp

theorem detectorFlags_getD (text : List Char) :
    ∀ (cs : List ChildTokens) (prevEnd : Nat) (k : Nat),
      (∀ c ∈ cs, c ≠ []) → 1 ≤ k → k < cs.length →
      (detectorFlags text prevEnd cs).getD k false =
        decide (2 ≤ countNewlines text (childEnd (cs.getD (k - 1) []))
          (childBegin (cs.getD k []))) := by
  intro cs
  induction cs with
  | nil =>
    intro prevEnd k _ _ hk
    simp at hk
  | cons c rest ih =>
    intro prevEnd k hne h1 hk
    have hc : c ≠ [] := hne c (List.mem_cons_self _ _)
    rw [detectorFlags, detectorStep_nonempty text prevEnd hc]
    cases k with
    | zero => omega
    | succ k2 =>
      simp only [List.getD_cons_succ, Nat.succ_sub_one]
      cases k2 with
      | zero =>
        cases rest with
        | nil => simp at hk
        | cons c2 rest2 =>
          have hc2 : c2 ≠ [] := hne c2 (by simp)
          rw [detectorFlags, detectorStep_nonempty text (childEnd c) hc2]
          rfl
      | succ k3 =>
        rw [ih (childEnd c) (k3 + 1)
          (fun x hx => hne x (List.mem_cons_of_mem _ hx)) (by omega)
          (by simpa using hk)]
        simp only [Nat.succ_sub_one]
        rfl

/-- C7: walking the children of the target partition left to right, a
new alignment group begins at child `k` exactly when the source-buffer
gap strictly between child `k-1`'s last-token end and child `k`'s
first-token begin contains at least two newline characters. -/
theorem claim_C7_group_boundaries (text : List Char)
    (children : List ChildTokens) (hne : ∀ c ∈ children, c ≠ [])
    {k : Nat} (hk1 : 1 ≤ k) (hk2 : k < children.length) :
    k ∈ FindPartitionGroupBoundaries text children ↔
      2 ≤ countNewlines text (childEnd (children.getD (k - 1) []))
        (childBegin (children.getD k [])) := by
  have hne2 : ¬children.isEmpty = true := by
    cases children
    · simp at hk2
    · simp
  unfold FindPartitionGroupBoundaries
  rw [if_neg hne2, List.mem_cons]
  constructor
  · rintro (h0 | h)
    · omega
    · rcases List.mem_append.mp h with hf | hn
      · rcases List.mem_filter.mp hf with ⟨_, hflag⟩
        rw [detectorFlags_getD text children (detectorInit children) k hne
          hk1 hk2] at hflag
        exact of_decide_eq_true hflag
      · simp at hn
        omega
  · intro h
    refine Or.inr (List.mem_append.mpr (Or.inl (List.mem_filter.mpr
      ⟨List.mem_range.mpr hk2, ?_⟩)))
    rw [detectorFlags_getD text children (detectorInit children) k hne
      hk1 hk2]
    exact decide_eq_true h

theorem claim_C7_witness :
    (1 : Nat) ∈ FindPartitionGroupBoundaries exText exChildren ↔
      2 ≤ countNewlines exText (childEnd (exChildren.getD 0 []))
        (childBegin (exChildren.getD 1 [])) :=
  claim_C7_group_boundaries exText exChildren (by decide) (by decide)
    (by decide)

end GroupM

/-- C6: a candidate group is rejected whole — skipped with no row
touched — exactly when its byte span overlaps the format-disabled byte
set; the decision complements the disabled set against the group's
span offsets and compares the result with the group's span as a set. -/
theorem claim_C6_disabled_group_rejected {disabled : IntervalSetM.ISet}
    (hd : IntervalSetM.Canonical disabled) {lo hi : Nat}
    (hspan : lo ≤ hi) :
    (IntervalSetM.AnyPartitionSubRangeIsDisabled lo hi disabled = true ↔
      ∃ v, lo ≤ v ∧ v < hi ∧
        IntervalSetM.Contains disabled v = true) ∧
    (∀ buf group scanner ignore_pred limit,
      IntervalSetM.AnyPartitionSubRangeIsDisabled lo hi disabled = true →
      AlignM.TabularAlignGroupStep buf group scanner ignore_pred limit
        (lo, hi) disabled = some buf) := by
  have hzcan : IntervalSetM.Canonical ([] : IntervalSetM.ISet) := rfl
  constructor
  · unfold IntervalSetM.AnyPartitionSubRangeIsDisabled
    rw [decide_eq_true_eq]
    have hcompl := IntervalSetM.complement_canonical hd (lo, hi)
    have hspanset : IntervalSetM.Canonical (IntervalSetM.Add [] lo hi) :=
      IntervalSetM.add_canonical hzcan lo hi
    constructor
    · intro hne
      by_contra hex
      push_neg at hex
      apply hne
      apply IntervalSetM.canonical_ext hcompl hspanset
      intro v
      rw [IntervalSetM.complement_memB hd (lo, hi) v,
        IntervalSetM.add_memB hzcan hspan v,
        show IntervalSetM.memB [] v = false from rfl, Bool.false_or]
      cases hm : IntervalSetM.memB disabled v
      · rw [Bool.not_false, Bool.and_true]
      · have hcont : IntervalSetM.Contains disabled v = true := by
          rw [IntervalSetM.contains_eq_memB hd]
          exact hm
        by_cases h1 : lo ≤ v
        · by_cases h2 : v < hi
          · exact absurd hcont (hex v h1 h2)
          · rw [Bool.not_true, Bool.and_false,
              decide_eq_false h2, Bool.and_false]
        · rw [Bool.not_true, Bool.and_false, decide_eq_false h1]
          rfl
    · rintro ⟨v, h1, h2, h3⟩ heq
      have hmemeq := congrArg (fun s => IntervalSetM.memB s v) heq
      simp only at hmemeq
      rw [IntervalSetM.complement_memB hd (lo, hi) v,
        IntervalSetM.add_memB hzcan hspan v,
        show IntervalSetM.memB [] v = false from rfl, Bool.false_or] at hmemeq
      rw [IntervalSetM.contains_eq_memB hd] at h3
      rw [h3, decide_eq_true h1, decide_eq_true h2] at hmemeq
      simp at hmemeq
  · intro buf group scanner ignore_pred limit hdis
    unfold AlignM.TabularAlignGroupStep
    rw [hdis]
    simp

theorem claim_C6_witness :
    IntervalSetM.Canonical [(2, 4)] ∧ (0 : Nat) ≤ 10 ∧
    ((IntervalSetM.AnyPartitionSubRangeIsDisabled 0 10 [(2, 4)] = true ↔
      ∃ v, 0 ≤ v ∧ v < 10 ∧
        IntervalSetM.Contains [(2, 4)] v = true) ∧
    (∀ buf group scanner ignore_pred limit,
      IntervalSetM.AnyPartitionSubRangeIsDisabled 0 10 [(2, 4)] = true →
      AlignM.TabularAlignGroupStep buf group scanner ignore_pred limit
        (0, 10) [(2, 4)] = some buf)) :=
  ⟨by decide, by decide,
    claim_C6_disabled_group_rejected (by decide) (by decide)⟩

end Verible
